import Mathlib

/-!
Shallow embedding of `segeval/similarity/distance/multipleboundary.py`:
the multiple-boundary edit distance (Fournier 2013, algorithms 4.1-4.3).

Boundary labels are integers; a boundary string is a list of finite label
sets, one per potential boundary position.  Python dictionaries keyed by
position are embedded as association lists (insertion order preserved),
Python sets of labels as `Finset ℤ` (iteration realised in ascending
order), and the in-place mutation of the per-position difference records
as explicit state passing through folds.
-/

namespace Segeval

abbrev Lab := ℤ

/-- Side of an addition: `'a'` or `'b'` in the Python namedtuple. -/
inductive Side where
  | a : Side
  | b : Side
deriving DecidableEq, Repr

/-- `Addition = namedtuple('Addition', 'type side')`. -/
structure Addition where
  type : Lab
  side : Side
deriving DecidableEq, Repr

/-- `Substitution = namedtuple('Substitution', 'type_a type_b')`. -/
structure Substitution where
  type_a : Lab
  type_b : Lab
deriving DecidableEq, Repr

/-- `Transposition = namedtuple('Transposition', 'start end type')`
(`end` is a Lean keyword, rendered `stop`). -/
structure Transposition where
  start : ℕ
  stop : ℕ
  type : Lab
deriving DecidableEq, Repr

/-- `Difference = namedtuple('Difference', 'sim a_b b_a')`. -/
structure Difference where
  sim : Finset Lab
  a_b : Finset Lab
  b_a : Finset Lab
deriving DecidableEq

/-- Symmetric difference of two label sets, `x ^ y` in Python. -/
def sdiff2 (x y : Finset Lab) : Finset Lab := (x \ y) ∪ (y \ x)

/-- A Python set of labels iterated in ascending order (insertion sort of
the underlying multiset; sorting a multiset along a total antisymmetric
order is well defined). -/
def sortedList (s : Finset Lab) : List Lab :=
  Quotient.lift (List.insertionSort (fun x y : Lab => x ≤ y))
    (fun l1 l2 (h : l1.Perm l2) =>
      List.eq_of_perm_of_sorted
        ((List.perm_insertionSort _ l1).trans (h.trans (List.perm_insertionSort _ l2).symm))
        (List.sorted_insertionSort _ l1) (List.sorted_insertionSort _ l2)) s.val

/-- `additions_substitutions(d, a, b)`: the count pair
`(abs(len(a) - len(b)), (len(d) - additions) / 2)`; the second component is
a Python float (true division), embedded as a rational. -/
def additions_substitutions (d a b : Finset Lab) : ℕ × ℚ :=
  let additions := ((a.card : ℤ) - (b.card : ℤ)).natAbs
  (additions, ((d.card : ℚ) - (additions : ℚ)) / 2)

/-- Cost of one candidate pairing: `sum(abs(a_i - b_i) for ...)`.
The Python sum ranges over `set(zip(perm_a, perm_b))`; the zipped pairs of
two permutations of disjoint sorted sets are pairwise distinct, so the sum
over the list is the same number. -/
def pairing_delta (ps : List (Lab × Lab)) : ℤ :=
  (ps.map (fun p => |p.1 - p.2|)).sum

/-- All ways of inserting `x` into a list. -/
def insertions (x : Lab) : List Lab → List (List Lab)
  | [] => [[x]]
  | y :: ys => (x :: y :: ys) :: (insertions x ys).map (fun zs => y :: zs)

/-- All permutations of a list (the enumeration `itertools.permutations`;
the identity permutation comes first, later duplicates-free orderings may
be enumerated in a different order, which only moves ties of the
minimum-cost scan). -/
def permutationsList : List Lab → List (List Lab)
  | [] => [[]]
  | x :: xs => (permutationsList xs).flatMap (fun p => insertions x p)

/-- All candidate pairings scanned by `additions_substitutions_sets`:
`zip(perm_a, perm_b)` for `perm_a` over `permutations(sorted(a))` (outer
loop) and `perm_b` over `permutations(sorted(b))` (inner loop). -/
def candidate_pairings (a b : Finset Lab) : List (List (Lab × Lab)) :=
  (permutationsList (sortedList a)).flatMap (fun pa =>
    (permutationsList (sortedList b)).map (fun pb => pa.zip pb))

/-- One update of the running minimum: starting from `delta = None`,
replace the stored pairing whenever `current_delta < delta` (strict, so
the first pairing attaining the minimum is kept). -/
def min_step (acc : Option (ℤ × List (Lab × Lab))) (c : List (Lab × Lab)) :
    Option (ℤ × List (Lab × Lab)) :=
  match acc with
  | none => some (pairing_delta c, c)
  | some x => if pairing_delta c < x.1 then some (pairing_delta c, c) else some x

/-- The pairing kept at the end of the scan (the empty pairing if no
candidate was scanned, matching the initial `substitutions = list()`). -/
def select_min (cs : List (List (Lab × Lab))) : List (Lab × Lab) :=
  ((cs.foldl min_step none).map Prod.snd).getD []

/-- The minimum-cost pairing chosen for one position. -/
def chosen_pairing (a b : Finset Lab) : List (Lab × Lab) :=
  select_min (candidate_pairings a b)

/-- `additions_substitutions_sets(d, a, b)`: choose a minimum-cost pairing,
then everything of `a` and of `b` not substituted becomes an `Addition`
tagged with its side (the Python sets `a - set(substituted)` and
`b - set(substituted)` iterated in ascending order).  The Python function
returns the substitutions as a set; the chosen zipped pairing has pairwise
distinct pairs, embedded as the duplicate-free list itself.  The argument
`d` only feeds a consistency `assert` in the source. -/
def additions_substitutions_sets (d a b : Finset Lab) :
    List Addition × List Substitution :=
  let ps := chosen_pairing a b
  let substituted : Finset Lab := (ps.map Prod.fst).toFinset ∪ (ps.map Prod.snd).toFinset
  let added :=
    (sortedList (a \ substituted)).map (fun x => Addition.mk x Side.a) ++
    (sortedList (b \ substituted)).map (fun x => Addition.mk x Side.b)
  (added, ps.map (fun p => Substitution.mk p.1 p.2))

/-- Looking a position up in the difference mapping; a missing key holds
no labels. -/
def lookupDiff (os : List (ℕ × Difference)) (p : ℕ) : Difference :=
  (os.lookup p).getD ⟨∅, ∅, ∅⟩

/-- `__has_substitutions__(i, j, d, options_set)`:
`i in options_set and d in options_set[i][0] and j in options_set and d in
options_set[j][0]` and both positions currently have a positive
substitution count (the float comparison
`additions_substitutions(...)[1] > 0`, i.e. `(len(d) - additions)/2 > 0`,
is rendered by the equivalent integer comparison `additions < len(d)`;
see `has_substitutions_subs_pos`). -/
def has_substitutions (i j : ℕ) (d : Lab) (os : List (ℕ × Difference)) : Bool :=
  match os.lookup i, os.lookup j with
  | some di, some dj =>
      decide (d ∈ di.sim) && decide (d ∈ dj.sim) &&
      decide ((((di.a_b.card : ℤ) - di.b_a.card).natAbs : ℤ) < (di.sim.card : ℤ)) &&
      decide ((((dj.a_b.card : ℤ) - dj.b_a.card).natAbs : ℤ) < (dj.sim.card : ℤ))
  | _, _ => false

/-- `__overlaps_existing__(i, j, d, options_transp)`: some previously
accepted transposition of the same label `d` touches position `i` or `j`.
(The Python dict `options_transp` indexes the accepted list by endpoint;
scanning the accepted list for an endpoint is the same test.) -/
def overlaps_existing (i j : ℕ) (d : Lab) (ts : List Transposition) : Bool :=
  ts.any (fun t => decide (t.type = d) &&
    (decide (t.start = i) || decide (t.stop = i) ||
     decide (t.start = j) || decide (t.stop = j)))

/-- State threaded through `find_transpositions`: the mutable difference
mapping and the accepted transpositions in acceptance order. -/
structure TState where
  options_set : List (ℕ × Difference)
  transpositions : List Transposition

/-- Point update of the difference mapping (in-place mutation of one
record in the Python dict). -/
def updateOpt (os : List (ℕ × Difference)) (p : ℕ) (f : Difference → Difference) :
    List (ℕ × Difference) :=
  os.map (fun e => if e.1 = p then (e.1, f e.2) else e)

/-- `discard(d)` on all three sets of one record. -/
def discardLab (df : Difference) (d : Lab) : Difference :=
  ⟨df.sim.erase d, df.a_b.erase d, df.b_a.erase d⟩

/-- Processing one candidate label `d` at endpoints `(i, j)`: accept unless
it overlaps an accepted same-label transposition or both endpoints still
support substitutions; on acceptance append the record and discard `d`
from both endpoint records. -/
def transp_step (i j : ℕ) (d : Lab) (st : TState) : TState :=
  if !(overlaps_existing i j d st.transpositions) && !(has_substitutions i j d st.options_set)
  then
    { options_set := updateOpt (updateOpt st.options_set i (discardLab · d)) j (discardLab · d),
      transpositions := st.transpositions ++ [⟨i, j, d⟩] }
  else st

/-- The candidate labels at endpoints `(i, j)`: the intersection
`(a_i ^ b_i) & (a_j ^ b_j) & (a_i ^ a_j) & (b_i ^ b_j)` computed from the
original boundary strings. -/
def t_p (bsa bsb : List (Finset Lab)) (i j : ℕ) : Finset Lab :=
  let a_i := bsa.getD i ∅
  let a_j := bsa.getD j ∅
  let b_i := bsb.getD i ∅
  let b_j := bsb.getD j ∅
  sdiff2 a_i b_i ∩ sdiff2 a_j b_j ∩ sdiff2 a_i a_j ∩ sdiff2 b_i b_j

/-- One scan position `(i, j)`: `for d in t_p`, in ascending label order. -/
def position_step (bsa bsb : List (Finset Lab)) (i j : ℕ) (st : TState) : TState :=
  (sortedList (t_p bsa bsb i j)).foldl (fun s d => transp_step i j d s) st

/-- The scan order of `find_transpositions`: spans `n` in ascending order,
and for each the start positions `i in range(0, len(boundary_string_a) -
(n - 1))`, with `j = i + (n - 1)`. -/
def scan_pairs (len_a : ℕ) (n_t : List ℕ) : List (ℕ × ℕ) :=
  (n_t.insertionSort (· ≤ ·)).flatMap (fun n =>
    (List.range (len_a - (n - 1))).map (fun i => (i, i + (n - 1))))

/-- `find_transpositions(boundary_string_a, boundary_string_b, n_t,
options_set)`: algorithm 4.3.  Returns the accepted transpositions
together with the mutated difference mapping. -/
def find_transpositions (bsa bsb : List (Finset Lab)) (n_t : List ℕ)
    (os : List (ℕ × Difference)) : List Transposition × List (ℕ × Difference) :=
  let final := (scan_pairs bsa.length n_t).foldl
    (fun st p => position_step bsa bsb p.1 p.2 st) ⟨os, []⟩
  (final.transpositions, final.options_set)

/-- `optional_set_edits(boundary_string_a, boundary_string_b)`: algorithm
4.2.  `zip` pairs the two strings up to the shorter length; positions with
an empty symmetric difference are omitted. -/
def optional_set_edits (bsa bsb : List (Finset Lab)) : List (ℕ × Difference) :=
  (bsa.zip bsb).enum.filterMap (fun e =>
    let a := e.2.1 \ e.2.2
    let b := e.2.2 \ e.2.1
    let d := sdiff2 e.2.1 e.2.2
    if d ≠ ∅ then some (e.1, ⟨d, a, b⟩) else none)

/-- `boundary_edit_distance(boundary_string_a, boundary_string_b, n_t)`:
algorithm 4.1.  `n_t` becomes the span list `range(2, n_t + 1)`; after
transposition resolution the remaining records are folded into addition
and substitution lists in position order. -/
def boundary_edit_distance (bsa bsb : List (Finset Lab)) (n_t : ℕ) :
    List Addition × List Substitution × List Transposition :=
  let spans := List.range' 2 (n_t - 1)
  let os := optional_set_edits bsa bsb
  let r := find_transpositions bsa bsb spans os
  let acc := r.2.foldl (fun acc e =>
      let cur := additions_substitutions_sets e.2.sim e.2.a_b e.2.b_a
      (acc.1 ++ cur.1, acc.2 ++ cur.2)) ([], [])
  (acc.1, acc.2, r.1)

/-! ### Analysis-side notions

Derived descriptions of the state of the computation, used to state and
prove the properties below. -/

/-- Symmetric difference of the original strings at position `p`. -/
def origD (bsa bsb : List (Finset Lab)) (p : ℕ) : Finset Lab :=
  sdiff2 (bsa.getD p ∅) (bsb.getD p ∅)

/-- Labels only in `boundary_string_a` at position `p`. -/
def origA (bsa bsb : List (Finset Lab)) (p : ℕ) : Finset Lab :=
  bsa.getD p ∅ \ bsb.getD p ∅

/-- Labels only in `boundary_string_b` at position `p`. -/
def origB (bsa bsb : List (Finset Lab)) (p : ℕ) : Finset Lab :=
  bsb.getD p ∅ \ bsa.getD p ∅

/-- Whether a transposition has `p` as one of its endpoints. -/
def touchesB (t : Transposition) (p : ℕ) : Bool :=
  decide (t.start = p) || decide (t.stop = p)

/-- Labels claimed at position `p` by the accepted transpositions `ts`. -/
def claimed (ts : List Transposition) (p : ℕ) : Finset Lab :=
  ((ts.filter (fun t => touchesB t p)).map Transposition.type).toFinset

/-- Explicit description of the difference mapping after the
transpositions `ts` have been accepted: per position, the original
difference sets minus the labels claimed there. -/
def osOf (bsa bsb : List (Finset Lab)) (ts : List Transposition) :
    List (ℕ × Difference) :=
  (List.range (bsa.zip bsb).length).filterMap (fun p =>
    if origD bsa bsb p ≠ ∅ then
      some (p, ⟨origD bsa bsb p \ claimed ts p, origA bsa bsb p \ claimed ts p,
                origB bsa bsb p \ claimed ts p⟩)
    else none)

/-- A pairing of `min |a| |b|` distinct labels of `a` against distinct
labels of `b` (a maximal matching of the two residual sets). -/
def MaximalPairing (a b : Finset Lab) (qs : List (Lab × Lab)) : Prop :=
  (qs.map Prod.fst).Nodup ∧ (qs.map Prod.snd).Nodup ∧
    (∀ p ∈ qs, p.1 ∈ a ∧ p.2 ∈ b) ∧ qs.length = min a.card b.card

/-- Well-formedness of an accepted transposition list: every record has
two distinct in-range endpoints whose original symmetric differences both
contain its label, and no two same-label records share an endpoint. -/
def TransChain (bsa bsb : List (Finset Lab)) (ts : List Transposition) : Prop :=
  (∀ t ∈ ts, t.start < (bsa.zip bsb).length ∧ t.stop < (bsa.zip bsb).length ∧
    t.start ≠ t.stop ∧ t.type ∈ origD bsa bsb t.start ∧ t.type ∈ origD bsa bsb t.stop) ∧
  List.Pairwise (fun t1 t2 => t1.type = t2.type →
    t1.start ≠ t2.start ∧ t1.start ≠ t2.stop ∧ t1.stop ≠ t2.start ∧ t1.stop ≠ t2.stop) ts

/-- Invariant of the transposition scan: the difference mapping is the
original per-position differences minus the labels claimed by the
accepted transpositions, which form a well-formed chain. -/
def StInv (bsa bsb : List (Finset Lab)) (st : TState) : Prop :=
  st.options_set = osOf bsa bsb st.transpositions ∧ TransChain bsa bsb st.transpositions

/-- A transposition's label is absent from the residual sets of both of
its endpoints in the difference mapping `os`. -/
def ClearedAt (os : List (ℕ × Difference)) (t : Transposition) : Prop :=
  t.type ∉ (lookupDiff os t.start).sim ∧ t.type ∉ (lookupDiff os t.start).a_b ∧
  t.type ∉ (lookupDiff os t.start).b_a ∧ t.type ∉ (lookupDiff os t.stop).sim ∧
  t.type ∉ (lookupDiff os t.stop).a_b ∧ t.type ∉ (lookupDiff os t.stop).b_a

/-! ### Sorted iteration and the permutation enumeration -/

theorem sortedList_coe (s : Finset Lab) : (↑(sortedList s) : Multiset Lab) = s.val := by
  rcases s with ⟨m, hm⟩
  induction m using Quotient.inductionOn with
  | h l => exact Quotient.sound (List.perm_insertionSort _ l)

theorem sortedList_length (s : Finset Lab) : (sortedList s).length = s.card := by
  have h := congrArg Multiset.card (sortedList_coe s)
  rw [Multiset.coe_card] at h
  exact h

theorem sortedList_nodup (s : Finset Lab) : (sortedList s).Nodup := by
  have h : (↑(sortedList s) : Multiset Lab).Nodup := (sortedList_coe s).symm ▸ s.nodup
  exact Multiset.coe_nodup.1 h

theorem sortedList_mem {s : Finset Lab} {x : Lab} : x ∈ sortedList s ↔ x ∈ s := by
  have h : x ∈ (↑(sortedList s) : Multiset Lab) ↔ x ∈ s.val := by rw [sortedList_coe]
  simpa [Multiset.mem_coe] using h

theorem sortedList_toFinset (s : Finset Lab) : (sortedList s).toFinset = s := by
  ext x
  rw [List.mem_toFinset, sortedList_mem]

theorem sortedList_empty : sortedList (∅ : Finset Lab) = [] := rfl

theorem mem_insertions {x : Lab} {l l' : List Lab} (h : l' ∈ insertions x l) :
    l'.Perm (x :: l) := by
  induction l generalizing l' with
  | nil =>
    simp only [insertions, List.mem_singleton] at h
    subst h
    exact List.Perm.refl _
  | cons y ys ih =>
    simp only [insertions, List.mem_cons, List.mem_map] at h
    rcases h with rfl | ⟨zs, hzs, rfl⟩
    · exact List.Perm.refl _
    · exact ((ih hzs).cons y).trans (List.Perm.swap x y ys)

theorem cons_self_mem_insertions (x : Lab) (l : List Lab) : x :: l ∈ insertions x l := by
  cases l with
  | nil => simp [insertions]
  | cons y ys => simp [insertions]

theorem mem_insertions_of_erase {x : Lab} {l' : List Lab} (hx : x ∈ l') :
    l' ∈ insertions x (l'.erase x) := by
  induction l' with
  | nil => cases hx
  | cons y ys ih =>
    by_cases hxy : y = x
    · subst hxy
      rw [List.erase_cons_head]
      exact cons_self_mem_insertions y ys
    · have hx2 : x ∈ ys := by
        rcases List.mem_cons.1 hx with h | h
        · exact (hxy h.symm).elim
        · exact h
      rw [List.erase_cons_tail (by simpa using hxy)]
      simp only [insertions, List.mem_cons, List.mem_map]
      exact Or.inr ⟨ys, ih hx2, rfl⟩

theorem mem_permutationsList {l l' : List Lab} : l' ∈ permutationsList l ↔ l'.Perm l := by
  induction l generalizing l' with
  | nil =>
    simp only [permutationsList, List.mem_singleton]
    constructor
    · rintro rfl
      exact List.Perm.refl _
    · intro h
      exact h.eq_nil
  | cons x xs ih =>
    simp only [permutationsList, List.mem_flatMap]
    constructor
    · rintro ⟨p, hp, hl'⟩
      exact (mem_insertions hl').trans ((ih.1 hp).cons x)
    · intro h
      have hx : x ∈ l' := h.mem_iff.2 (List.mem_cons_self x xs)
      refine ⟨l'.erase x, ih.2 ?_, mem_insertions_of_erase hx⟩
      have h2 := h.erase x
      rwa [List.erase_cons_head] at h2

/-- The integer test used in `has_substitutions` is exactly the source's
float comparison `additions_substitutions(...)[1] > 0`. -/
theorem has_substitutions_subs_pos (d a b : Finset Lab) :
    (((a.card : ℤ) - b.card).natAbs : ℤ) < (d.card : ℤ) ↔
      0 < (additions_substitutions d a b).2 := by
  unfold additions_substitutions
  simp only
  rw [div_pos_iff]
  constructor
  · intro h
    left
    constructor
    · rw [sub_pos]
      exact_mod_cast h
    · norm_num
  · rintro (⟨h, _⟩ | ⟨_, h⟩)
    · rw [sub_pos] at h
      exact_mod_cast h
    · norm_num at h

/-! ### The arithmetic of `additions_substitutions` -/

theorem additions_substitutions_eq (d a b : Finset Lab) (hd : d = a ∪ b)
    (hdisj : Disjoint a b) :
    additions_substitutions d a b =
      (((a.card : ℤ) - (b.card : ℤ)).natAbs, ((min a.card b.card : ℕ) : ℚ)) := by
  subst hd
  have hcard : (a ∪ b).card = a.card + b.card := Finset.card_union_of_disjoint hdisj
  unfold additions_substitutions
  simp only [hcard]
  refine Prod.ext rfl ?_
  rcases le_total a.card b.card with h | h
  · have h1 : ((a.card : ℤ) - (b.card : ℤ)).natAbs = b.card - a.card := by omega
    rw [h1, min_eq_left h]
    have h2 : ((b.card - a.card : ℕ) : ℚ) = (b.card : ℚ) - (a.card : ℚ) := by
      push_cast [h]; ring
    rw [h2]; push_cast; ring
  · have h1 : ((a.card : ℤ) - (b.card : ℤ)).natAbs = a.card - b.card := by omega
    rw [h1, min_eq_right h]
    have h2 : ((a.card - b.card : ℕ) : ℚ) = (a.card : ℚ) - (b.card : ℚ) := by
      push_cast [h]; ring
    rw [h2]; push_cast; ring

/-! ### Truncation behaviour of the difference extractor -/

theorem zip_eq_zip_take (bsa bsb : List (Finset Lab)) :
    bsa.zip bsb =
      (bsa.take (min bsa.length bsb.length)).zip (bsb.take (min bsa.length bsb.length)) := by
  induction bsa generalizing bsb with
  | nil => simp
  | cons x xs ih =>
    cases bsb with
    | nil => simp
    | cons y ys =>
      simp only [List.zip_cons_cons, List.length_cons]
      have : min (xs.length + 1) (ys.length + 1) = min xs.length ys.length + 1 := by omega
      rw [this, List.take_succ_cons, List.take_succ_cons, List.zip_cons_cons, ih ys]

/-! ### Identity comparison -/

theorem zip_self_eq_map (l : List (Finset Lab)) : l.zip l = l.map (fun x => (x, x)) := by
  induction l with
  | nil => rfl
  | cons x xs ih => simp [List.zip_cons_cons, ih]

theorem sdiff2_self (x : Finset Lab) : sdiff2 x x = ∅ := by
  simp [sdiff2]

theorem optional_set_edits_self (s : List (Finset Lab)) :
    optional_set_edits s s = [] := by
  unfold optional_set_edits
  rw [zip_self_eq_map, List.enum_map, List.filterMap_map]
  apply List.filterMap_eq_nil_iff.2
  intro e _
  simp [sdiff2_self]

theorem t_p_self (s : List (Finset Lab)) (i j : ℕ) : t_p s s i j = ∅ := by
  simp [t_p, sdiff2]

theorem position_step_self (s : List (Finset Lab)) (i j : ℕ) (st : TState) :
    position_step s s i j st = st := by
  unfold position_step
  rw [t_p_self, sortedList_empty]
  rfl

theorem find_transpositions_self (s : List (Finset Lab)) (n_t : List ℕ)
    (os : List (ℕ × Difference)) :
    find_transpositions s s n_t os = ([], os) := by
  unfold find_transpositions
  have h : ∀ (ps : List (ℕ × ℕ)) (st : TState),
      ps.foldl (fun st p => position_step s s p.1 p.2 st) st = st := by
    intro ps
    induction ps with
    | nil => intro st; rfl
    | cons p ps ih => intro st; rw [List.foldl_cons, position_step_self]; exact ih st

  rw [h]

/-! ### The minimum-cost pairing scan -/

theorem foldl_min_step_some (cs : List (List (Lab × Lab))) (p : ℤ × List (Lab × Lab)) :
    ∃ q, cs.foldl min_step (some p) = some q ∧ (q = p ∨ q.2 ∈ cs) ∧ q.1 ≤ p.1 ∧
      (q.1 = pairing_delta q.2 ∨ q = p) ∧ ∀ c ∈ cs, q.1 ≤ pairing_delta c := by
  induction cs generalizing p with
  | nil => exact ⟨p, rfl, Or.inl rfl, le_refl _, Or.inr rfl, by simp⟩
  | cons c cs ih =>
    rw [List.foldl_cons]
    have hstep : min_step (some p) c =
        if pairing_delta c < p.1 then some (pairing_delta c, c) else some p := rfl
    rw [hstep]
    by_cases h : pairing_delta c < p.1
    · rw [if_pos h]
      obtain ⟨q, hq, hmem, hle, hdel, hall⟩ := ih (pairing_delta c, c)
      refine ⟨q, hq, ?_, le_of_lt (lt_of_le_of_lt hle h), ?_, ?_⟩
      · rcases hmem with h1 | h1
        · exact Or.inr (h1 ▸ List.mem_cons_self c cs)
        · exact Or.inr (List.mem_cons_of_mem c h1)
      · rcases hdel with h1 | h1
        · exact Or.inl h1
        · exact Or.inl (by rw [h1])
      · intro c' hc'
        rcases List.mem_cons.1 hc' with h1 | h1
        · exact h1 ▸ hle
        · exact hall c' h1
    · rw [if_neg h]
      obtain ⟨q, hq, hmem, hle, hdel, hall⟩ := ih p
      refine ⟨q, hq, ?_, hle, hdel, ?_⟩
      · rcases hmem with h1 | h1
        · exact Or.inl h1
        · exact Or.inr (List.mem_cons_of_mem c h1)
      · intro c' hc'
        rcases List.mem_cons.1 hc' with h1 | h1
        · exact h1 ▸ le_trans hle (le_of_not_lt h)
        · exact hall c' h1

theorem select_min_spec (cs : List (List (Lab × Lab))) (h : cs ≠ []) :
    select_min cs ∈ cs ∧ ∀ c ∈ cs, pairing_delta (select_min cs) ≤ pairing_delta c := by
  cases cs with
  | nil => exact absurd rfl h
  | cons c cs =>
    have hinit : (c :: cs).foldl min_step none =
        cs.foldl min_step (some (pairing_delta c, c)) := rfl
    obtain ⟨q, hq, hmem, hle, hdel, hall⟩ := foldl_min_step_some cs (pairing_delta c, c)
    have hsel : select_min (c :: cs) = q.2 := by
      unfold select_min
      rw [hinit, hq]
      rfl
    have hq1 : q.1 = pairing_delta q.2 := by
      rcases hdel with h1 | h1
      · exact h1
      · rw [h1]
    constructor
    · rw [hsel]
      rcases hmem with h1 | h1
      · rw [h1]
        exact List.mem_cons_self c cs
      · exact List.mem_cons_of_mem c h1
    · intro c' hc'
      rw [hsel, ← hq1]
      rcases List.mem_cons.1 hc' with h1 | h1
      · exact h1 ▸ hle
      · exact hall c' h1

theorem candidate_pairings_ne_nil (a b : Finset Lab) : candidate_pairings a b ≠ [] := by
  have hmem : (sortedList a).zip (sortedList b) ∈ candidate_pairings a b := by
    unfold candidate_pairings
    exact List.mem_flatMap.2 ⟨sortedList a, mem_permutationsList.2 (List.Perm.refl _),
      List.mem_map.2 ⟨sortedList b, mem_permutationsList.2 (List.Perm.refl _), rfl⟩⟩
  exact List.ne_nil_of_mem hmem

theorem mem_candidate_pairings {a b : Finset Lab} {ps : List (Lab × Lab)}
    (h : ps ∈ candidate_pairings a b) :
    ∃ pa pb : List Lab, pa.Perm (sortedList a) ∧ pb.Perm (sortedList b) ∧ ps = pa.zip pb := by
  unfold candidate_pairings at h
  obtain ⟨pa, hpa, h⟩ := List.mem_flatMap.1 h
  obtain ⟨pb, hpb, rfl⟩ := List.mem_map.1 h
  exact ⟨pa, pb, mem_permutationsList.1 hpa, mem_permutationsList.1 hpb, rfl⟩

theorem chosen_pairing_spec (a b : Finset Lab) :
    ∃ pa pb : List Lab, pa.Perm (sortedList a) ∧ pb.Perm (sortedList b) ∧
      chosen_pairing a b = pa.zip pb ∧
      ∀ qs ∈ candidate_pairings a b, pairing_delta (chosen_pairing a b) ≤ pairing_delta qs := by
  have h := select_min_spec (candidate_pairings a b) (candidate_pairings_ne_nil a b)
  obtain ⟨pa, pb, h1, h2, h3⟩ := mem_candidate_pairings h.1
  exact ⟨pa, pb, h1, h2, h3, h.2⟩

theorem map_fst_zip_eq_take (l1 l2 : List Lab) :
    (l1.zip l2).map Prod.fst = l1.take l2.length := by
  induction l1 generalizing l2 with
  | nil => simp
  | cons x xs ih =>
    cases l2 with
    | nil => simp
    | cons y ys => simp [ih]

theorem map_snd_zip_eq_take (l1 l2 : List Lab) :
    (l1.zip l2).map Prod.snd = l2.take l1.length := by
  induction l1 generalizing l2 with
  | nil => simp
  | cons x xs ih =>
    cases l2 with
    | nil => simp
    | cons y ys => simp [ih]

theorem zip_perm_facts {a b : Finset Lab} {pa pb : List Lab}
    (hpa : pa.Perm (sortedList a)) (hpb : pb.Perm (sortedList b)) :
    (pa.zip pb).length = min a.card b.card ∧
      ((pa.zip pb).map Prod.fst).Nodup ∧ ((pa.zip pb).map Prod.snd).Nodup ∧
      (∀ p ∈ pa.zip pb, p.1 ∈ a ∧ p.2 ∈ b) := by
  have hna : pa.Nodup := hpa.nodup_iff.2 (sortedList_nodup a)
  have hnb : pb.Nodup := hpb.nodup_iff.2 (sortedList_nodup b)
  have hla : pa.length = a.card := by rw [hpa.length_eq, sortedList_length]
  have hlb : pb.length = b.card := by rw [hpb.length_eq, sortedList_length]
  refine ⟨by rw [List.length_zip, hla, hlb], ?_, ?_, ?_⟩
  · rw [map_fst_zip_eq_take]
    exact (List.take_sublist _ _).nodup hna
  · rw [map_snd_zip_eq_take]
    exact (List.take_sublist _ _).nodup hnb
  · intro p hp
    obtain ⟨h1, h2⟩ := List.of_mem_zip hp
    constructor
    · exact sortedList_mem.1 (hpa.mem_iff.1 h1)
    · exact sortedList_mem.1 (hpb.mem_iff.1 h2)

theorem chosen_pairing_facts (a b : Finset Lab) :
    (chosen_pairing a b).length = min a.card b.card ∧
      ((chosen_pairing a b).map Prod.fst).Nodup ∧
      ((chosen_pairing a b).map Prod.snd).Nodup ∧
      (∀ p ∈ chosen_pairing a b, p.1 ∈ a ∧ p.2 ∈ b) := by
  obtain ⟨pa, pb, hpa, hpb, heq, _⟩ := chosen_pairing_spec a b
  rw [heq]
  exact zip_perm_facts hpa hpb

/-! ### Per-position conservation -/

theorem asets_spelled (d a b : Finset Lab) :
    additions_substitutions_sets d a b =
      ((sortedList (a \ (((chosen_pairing a b).map Prod.fst).toFinset ∪
          ((chosen_pairing a b).map Prod.snd).toFinset))).map (fun x => Addition.mk x Side.a) ++
       (sortedList (b \ (((chosen_pairing a b).map Prod.fst).toFinset ∪
          ((chosen_pairing a b).map Prod.snd).toFinset))).map (fun x => Addition.mk x Side.b),
       (chosen_pairing a b).map (fun p => Substitution.mk p.1 p.2)) := rfl

theorem asets_conservation (a b : Finset Lab) (hdisj : Disjoint a b) :
    (additions_substitutions_sets (a ∪ b) a b).1.length +
      2 * (additions_substitutions_sets (a ∪ b) a b).2.length = (a ∪ b).card := by
  obtain ⟨hlen, hnf, hns, hmemab⟩ := chosen_pairing_facts a b
  set ps := chosen_pairing a b with hps
  set substituted : Finset Lab :=
    ((ps.map Prod.fst).toFinset) ∪ ((ps.map Prod.snd).toFinset) with hsubst
  have hfsub : (ps.map Prod.fst).toFinset ⊆ a := by
    intro x hx
    obtain ⟨p, hp, rfl⟩ := List.mem_map.1 (List.mem_toFinset.1 hx)
    exact (hmemab p hp).1
  have hssub : (ps.map Prod.snd).toFinset ⊆ b := by
    intro x hx
    obtain ⟨p, hp, rfl⟩ := List.mem_map.1 (List.mem_toFinset.1 hx)
    exact (hmemab p hp).2
  have hfcard : (ps.map Prod.fst).toFinset.card = ps.length := by
    rw [List.toFinset_card_of_nodup hnf, List.length_map]
  have hscard : (ps.map Prod.snd).toFinset.card = ps.length := by
    rw [List.toFinset_card_of_nodup hns, List.length_map]
  have hasub : a \ substituted = a \ (ps.map Prod.fst).toFinset := by
    ext x
    simp only [hsubst, Finset.mem_sdiff, Finset.mem_union]
    constructor
    · rintro ⟨hxa, hx⟩
      exact ⟨hxa, fun hxf => hx (Or.inl hxf)⟩
    · rintro ⟨hxa, hx⟩
      refine ⟨hxa, fun h => ?_⟩
      rcases h with h | h
      · exact hx h
      · exact Finset.disjoint_left.1 hdisj hxa (hssub h)
  have hbsub : b \ substituted = b \ (ps.map Prod.snd).toFinset := by
    ext x
    simp only [hsubst, Finset.mem_sdiff, Finset.mem_union]
    constructor
    · rintro ⟨hxb, hx⟩
      exact ⟨hxb, fun hxs => hx (Or.inr hxs)⟩
    · rintro ⟨hxb, hx⟩
      refine ⟨hxb, fun h => ?_⟩
      rcases h with h | h
      · exact Finset.disjoint_right.1 hdisj hxb (hfsub h)
      · exact hx h
  have hacard : (a \ substituted).card = a.card - ps.length := by
    rw [hasub, Finset.card_sdiff hfsub, hfcard]
  have hbcard : (b \ substituted).card = b.card - ps.length := by
    rw [hbsub, Finset.card_sdiff hssub, hscard]
  have h1 : (additions_substitutions_sets (a ∪ b) a b).1.length =
      (a \ substituted).card + (b \ substituted).card := by
    rw [asets_spelled]
    simp only [List.length_append, List.length_map, sortedList_length]
  have h2 : (additions_substitutions_sets (a ∪ b) a b).2.length = ps.length := by
    rw [asets_spelled]
    simp only [List.length_map]
  have hk : ps.length ≤ a.card ∧ ps.length ≤ b.card := by
    constructor
    · rw [hlen]; exact min_le_left _ _
    · rw [hlen]; exact min_le_right _ _
  have hcard : (a ∪ b).card = a.card + b.card := Finset.card_union_of_disjoint hdisj
  rw [h1, h2, hacard, hbcard, hcard]
  omega

/-! ### Every maximal pairing is scanned -/

theorem perm_sortedList_of_nodup {l : List Lab} {s : Finset Lab} (hn : l.Nodup)
    (hs : l.toFinset = s) : l.Perm (sortedList s) :=
  List.perm_of_nodup_nodup_toFinset_eq hn (sortedList_nodup s)
    (by rw [hs, sortedList_toFinset])

theorem zip_map_fst_map_snd (qs : List (Lab × Lab)) :
    (qs.map Prod.fst).zip (qs.map Prod.snd) = qs := by
  have h := List.zip_unzip qs
  rwa [List.unzip_eq_map] at h

theorem toFinset_eq_of_subset_card {l : List Lab} {s : Finset Lab} (hn : l.Nodup)
    (hsub : l.toFinset ⊆ s) (hcard : l.length = s.card) : l.toFinset = s := by
  apply Finset.eq_of_subset_of_card_le hsub
  rw [List.toFinset_card_of_nodup hn, hcard]

theorem maximal_pairing_mem_candidates {a b : Finset Lab} {qs : List (Lab × Lab)}
    (h : MaximalPairing a b qs) : qs ∈ candidate_pairings a b := by
  obtain ⟨hnf, hns, hmem, hlen⟩ := h
  have hfsub : (qs.map Prod.fst).toFinset ⊆ a := by
    intro x hx
    obtain ⟨p, hp, rfl⟩ := List.mem_map.1 (List.mem_toFinset.1 hx)
    exact (hmem p hp).1
  have hssub : (qs.map Prod.snd).toFinset ⊆ b := by
    intro x hx
    obtain ⟨p, hp, rfl⟩ := List.mem_map.1 (List.mem_toFinset.1 hx)
    exact (hmem p hp).2
  rcases le_total a.card b.card with hab | hab
  · -- the A side is exhausted: `perm_b` lists the matched labels first
    have hlena : qs.length = a.card := by rw [hlen, min_eq_left hab]
    have hfeq : (qs.map Prod.fst).toFinset = a :=
      toFinset_eq_of_subset_card hnf hfsub (by rw [List.length_map, hlena])
    have hpa : (qs.map Prod.fst).Perm (sortedList a) := perm_sortedList_of_nodup hnf hfeq
    set rest := (sortedList b).filter (fun y => decide (y ∉ qs.map Prod.snd)) with hrest
    have hrest_nodup : rest.Nodup := (sortedList_nodup b).filter _
    have hdisj2 : ∀ y ∈ rest, y ∉ qs.map Prod.snd := by
      intro y hy
      have := List.of_mem_filter hy
      simpa using this
    have hpb_nodup : (qs.map Prod.snd ++ rest).Nodup := by
      rw [List.nodup_append]
      exact ⟨hns, hrest_nodup, fun y hy hy2 => hdisj2 y hy2 hy⟩
    have hpb_toFinset : (qs.map Prod.snd ++ rest).toFinset = b := by
      ext y
      simp only [List.toFinset_append, Finset.mem_union, List.mem_toFinset, hrest,
        List.mem_filter, sortedList_mem, decide_eq_true_eq]
      constructor
      · rintro (hy | ⟨hy, _⟩)
        · exact hssub (List.mem_toFinset.2 hy)
        · exact hy
      · intro hy
        by_cases hy2 : y ∈ qs.map Prod.snd
        · exact Or.inl hy2
        · exact Or.inr ⟨hy, hy2⟩
    have hpb : (qs.map Prod.snd ++ rest).Perm (sortedList b) :=
      perm_sortedList_of_nodup hpb_nodup hpb_toFinset
    have hzip : (qs.map Prod.fst).zip (qs.map Prod.snd ++ rest) = qs := by
      have h1 : qs.map Prod.fst = qs.map Prod.fst ++ [] := by simp
      rw [h1, List.zip_append (by simp), zip_map_fst_map_snd]
      simp
    unfold candidate_pairings
    exact List.mem_flatMap.2 ⟨qs.map Prod.fst, mem_permutationsList.2 hpa,
      List.mem_map.2 ⟨qs.map Prod.snd ++ rest, mem_permutationsList.2 hpb, hzip⟩⟩
  · -- the B side is exhausted: `perm_a` lists the matched labels first
    have hlenb : qs.length = b.card := by rw [hlen, min_eq_right hab]
    have hseq : (qs.map Prod.snd).toFinset = b :=
      toFinset_eq_of_subset_card hns hssub (by rw [List.length_map, hlenb])
    have hpb : (qs.map Prod.snd).Perm (sortedList b) := perm_sortedList_of_nodup hns hseq
    set rest := (sortedList a).filter (fun y => decide (y ∉ qs.map Prod.fst)) with hrest
    have hrest_nodup : rest.Nodup := (sortedList_nodup a).filter _
    have hdisj2 : ∀ y ∈ rest, y ∉ qs.map Prod.fst := by
      intro y hy
      have := List.of_mem_filter hy
      simpa using this
    have hpa_nodup : (qs.map Prod.fst ++ rest).Nodup := by
      rw [List.nodup_append]
      exact ⟨hnf, hrest_nodup, fun y hy hy2 => hdisj2 y hy2 hy⟩
    have hpa_toFinset : (qs.map Prod.fst ++ rest).toFinset = a := by
      ext y
      simp only [List.toFinset_append, Finset.mem_union, List.mem_toFinset, hrest,
        List.mem_filter, sortedList_mem, decide_eq_true_eq]
      constructor
      · rintro (hy | ⟨hy, _⟩)
        · exact hfsub (List.mem_toFinset.2 hy)
        · exact hy
      · intro hy
        by_cases hy2 : y ∈ qs.map Prod.fst
        · exact Or.inl hy2
        · exact Or.inr ⟨hy, hy2⟩
    have hpa : (qs.map Prod.fst ++ rest).Perm (sortedList a) :=
      perm_sortedList_of_nodup hpa_nodup hpa_toFinset
    have hzip : (qs.map Prod.fst ++ rest).zip (qs.map Prod.snd) = qs := by
      have h1 : qs.map Prod.snd = qs.map Prod.snd ++ [] := by simp
      rw [h1, List.zip_append (by simp), zip_map_fst_map_snd]
      simp
    unfold candidate_pairings
    exact List.mem_flatMap.2 ⟨qs.map Prod.fst ++ rest, mem_permutationsList.2 hpa,
      List.mem_map.2 ⟨qs.map Prod.snd, mem_permutationsList.2 hpb, hzip⟩⟩

/-! ### Unpaired labels -/

theorem a_sdiff_substituted (a b : Finset Lab) (hdisj : Disjoint a b) :
    a \ (((chosen_pairing a b).map Prod.fst).toFinset ∪
        ((chosen_pairing a b).map Prod.snd).toFinset) =
      a \ ((chosen_pairing a b).map Prod.fst).toFinset := by
  obtain ⟨_, _, _, hmem⟩ := chosen_pairing_facts a b
  ext x
  simp only [Finset.mem_sdiff, Finset.mem_union]
  constructor
  · rintro ⟨hxa, hx⟩
    exact ⟨hxa, fun hxf => hx (Or.inl hxf)⟩
  · rintro ⟨hxa, hx⟩
    refine ⟨hxa, fun h => ?_⟩
    rcases h with h | h
    · exact hx h
    · obtain ⟨p, hp, rfl⟩ := List.mem_map.1 (List.mem_toFinset.1 h)
      exact Finset.disjoint_left.1 hdisj hxa (hmem p hp).2

theorem b_sdiff_substituted (a b : Finset Lab) (hdisj : Disjoint a b) :
    b \ (((chosen_pairing a b).map Prod.fst).toFinset ∪
        ((chosen_pairing a b).map Prod.snd).toFinset) =
      b \ ((chosen_pairing a b).map Prod.snd).toFinset := by
  obtain ⟨_, _, _, hmem⟩ := chosen_pairing_facts a b
  ext x
  simp only [Finset.mem_sdiff, Finset.mem_union]
  constructor
  · rintro ⟨hxb, hx⟩
    exact ⟨hxb, fun hxs => hx (Or.inr hxs)⟩
  · rintro ⟨hxb, hx⟩
    refine ⟨hxb, fun h => ?_⟩
    rcases h with h | h
    · obtain ⟨p, hp, rfl⟩ := List.mem_map.1 (List.mem_toFinset.1 h)
      exact Finset.disjoint_right.1 hdisj hxb (hmem p hp).1
    · exact hx h

/-! ### Claim theorems: the substitution matcher and its arithmetic -/

/-- C9: on finite disjoint sets `a` and `b` with `d = a ∪ b`,
`additions_substitutions(d, a, b)` returns exactly
`(| |a| − |b| |, min(|a|, |b|))`; in particular the float
`(len(d) − additions) / 2` is the exact non-negative integer
`min(|a|, |b|)`, never fractional. -/
theorem additions_substitutions_exact (d a b : Finset Lab) (hd : d = a ∪ b)
    (hdisj : Disjoint a b) :
    additions_substitutions d a b =
      (((a.card : ℤ) - (b.card : ℤ)).natAbs, ((min a.card b.card : ℕ) : ℚ)) :=
  additions_substitutions_eq d a b hd hdisj

/-- Witness for C9 at `a = {2,3,4}`, `b = {6}`. -/
theorem additions_substitutions_exact_witness :
    (({2,3,4,6} : Finset Lab) = {2,3,4} ∪ {6}) ∧ Disjoint ({2,3,4} : Finset Lab) {6} ∧
      additions_substitutions {2,3,4,6} {2,3,4} {6} = (2, (1 : ℚ)) := by
  refine ⟨by decide, by decide, ?_⟩
  rw [additions_substitutions_exact {2,3,4,6} {2,3,4} {6} (by decide) (by decide)]
  have h1 : ({2,3,4} : Finset Lab).card = 3 := by decide
  have h2 : ({6} : Finset Lab).card = 1 := by decide
  rw [h1, h2]
  norm_num

/-- C3: for disjoint residual sets `a` and `b` (with symmetric difference
`d = a ∪ b`), `additions_substitutions_sets` returns `min(|a|, |b|)`
substitution pairs forming a maximal pairing of `a` against `b` that
minimises the summed absolute label distance over all maximal pairings,
and every unpaired label becomes an `Addition` tagged with its side. -/
theorem additions_substitutions_sets_minimal (a b : Finset Lab) (hdisj : Disjoint a b) :
    MaximalPairing a b (chosen_pairing a b) ∧
    (∀ qs, MaximalPairing a b qs →
      pairing_delta (chosen_pairing a b) ≤ pairing_delta qs) ∧
    (additions_substitutions_sets (a ∪ b) a b).2 =
      (chosen_pairing a b).map (fun p => Substitution.mk p.1 p.2) ∧
    (additions_substitutions_sets (a ∪ b) a b).2.length = min a.card b.card ∧
    (∀ x : Lab,
      (Addition.mk x Side.a ∈ (additions_substitutions_sets (a ∪ b) a b).1 ↔
        x ∈ a ∧ x ∉ (chosen_pairing a b).map Prod.fst) ∧
      (Addition.mk x Side.b ∈ (additions_substitutions_sets (a ∪ b) a b).1 ↔
        x ∈ b ∧ x ∉ (chosen_pairing a b).map Prod.snd)) := by
  obtain ⟨hlen, hnf, hns, hmem⟩ := chosen_pairing_facts a b
  refine ⟨⟨hnf, hns, hmem, hlen⟩, ?_, by rw [asets_spelled], ?_, ?_⟩
  · intro qs hqs
    obtain ⟨pa, pb, _, _, _, hmin⟩ := chosen_pairing_spec a b
    exact hmin qs (maximal_pairing_mem_candidates hqs)
  · rw [asets_spelled]
    simp only [List.length_map]
    exact hlen
  · intro x
    have hmem1 : Addition.mk x Side.a ∈ (additions_substitutions_sets (a ∪ b) a b).1 ↔
        x ∈ a \ (((chosen_pairing a b).map Prod.fst).toFinset ∪
          ((chosen_pairing a b).map Prod.snd).toFinset) := by
      rw [asets_spelled]
      simp only [List.mem_append, List.mem_map]
      constructor
      · rintro (⟨y, hy, hmk⟩ | ⟨y, hy, hmk⟩)
        · cases hmk
          exact sortedList_mem.1 hy
        · cases hmk
      · intro hx
        exact Or.inl ⟨x, sortedList_mem.2 hx, rfl⟩
    have hmem2 : Addition.mk x Side.b ∈ (additions_substitutions_sets (a ∪ b) a b).1 ↔
        x ∈ b \ (((chosen_pairing a b).map Prod.fst).toFinset ∪
          ((chosen_pairing a b).map Prod.snd).toFinset) := by
      rw [asets_spelled]
      simp only [List.mem_append, List.mem_map]
      constructor
      · rintro (⟨y, hy, hmk⟩ | ⟨y, hy, hmk⟩)
        · cases hmk
        · cases hmk
          exact sortedList_mem.1 hy
      · intro hx
        exact Or.inr ⟨x, sortedList_mem.2 hx, rfl⟩
    constructor
    · rw [hmem1, a_sdiff_substituted a b hdisj, Finset.mem_sdiff, List.mem_toFinset]
    · rw [hmem2, b_sdiff_substituted a b hdisj, Finset.mem_sdiff, List.mem_toFinset]

/-- Witness for C3 at `a = {2,3,4}`, `b = {6}` (Scenario A): the chosen
pairing is `{(4,6)}` and the additions are `[(2,'a'), (3,'a')]`. -/
theorem additions_substitutions_sets_minimal_witness :
    Disjoint ({2,3,4} : Finset Lab) {6} ∧
      (additions_substitutions_sets ({2,3,4} ∪ {6} : Finset Lab) {2,3,4} {6}).2.length = 1 ∧
      additions_substitutions_sets ({2,3,4,6} : Finset Lab) {2,3,4} {6} =
        ([⟨2, Side.a⟩, ⟨3, Side.a⟩], [⟨4, 6⟩]) := by
  refine ⟨by decide, ?_, by decide⟩
  have h := (additions_substitutions_sets_minimal {2,3,4} {6} (by decide)).2.2.2.1
  have h1 : ({2,3,4} : Finset Lab).card = 3 := by decide
  have h2 : ({6} : Finset Lab).card = 1 := by decide
  rw [h1, h2] at h
  exact h

/-! ### Claim theorems: identity and length handling -/

/-- C8: comparing any boundary string with itself, under any maximum
span, returns the empty decomposition. -/
theorem boundary_edit_distance_self (s : List (Finset Lab)) (n_t : ℕ) :
    boundary_edit_distance s s n_t = ([], [], []) := by
  simp only [boundary_edit_distance]
  rw [optional_set_edits_self, find_transpositions_self]
  rfl

/-- C2 (amended): `optional_set_edits` raises no length-mismatch error on
boundary strings of unequal length; `zip` silently truncates both strings
to the common prefix length, so the extracted differences are exactly
those of the truncated pair. -/
theorem optional_set_edits_truncates (bsa bsb : List (Finset Lab)) :
    optional_set_edits bsa bsb =
      optional_set_edits (bsa.take (min bsa.length bsb.length))
        (bsb.take (min bsa.length bsb.length)) := by
  unfold optional_set_edits
  conv_rhs => rw [← zip_eq_zip_take]

/-- Counterexample to C2 as stated: on the unequal-length pair
`[∅]` vs `[∅, {1}]` the edit distance fails with no error and returns the
empty decomposition — the differing second position is silently dropped
rather than rejected. -/
theorem boundary_edit_distance_no_length_error :
    ([(∅ : Finset Lab)].length ≠ [(∅ : Finset Lab), {1}].length) ∧
      boundary_edit_distance [(∅ : Finset Lab)] [∅, {1}] 2 = ([], [], []) :=
  ⟨by decide, by decide⟩

/-! ### Reading only the common prefix -/

theorem zip_take_right (l1 l2 : List (Finset Lab)) :
    l1.zip l2 = l1.zip (l2.take l1.length) := by
  induction l1 generalizing l2 with
  | nil => simp
  | cons x xs ih =>
    cases l2 with
    | nil => simp
    | cons y ys =>
      simp only [List.zip_cons_cons, List.length_cons, List.take_succ_cons]
      conv_lhs => rw [ih ys]

theorem getD_take (l : List (Finset Lab)) (k p : ℕ) (h : p < k) :
    (l.take k).getD p ∅ = l.getD p ∅ := by
  induction l generalizing k p with
  | nil => simp
  | cons x xs ih =>
    cases k with
    | zero => omega
    | succ k =>
      cases p with
      | zero => simp
      | succ p => simpa using ih k p (by omega)

theorem scan_pairs_bounds {len_a : ℕ} {n_t : List ℕ} {pr : ℕ × ℕ}
    (h : pr ∈ scan_pairs len_a n_t) :
    ∃ n ∈ n_t, pr.2 = pr.1 + (n - 1) ∧ pr.2 < len_a := by
  unfold scan_pairs at h
  obtain ⟨n, hn, h⟩ := List.mem_flatMap.1 h
  obtain ⟨i, hi, rfl⟩ := List.mem_map.1 h
  rw [List.mem_range] at hi
  exact ⟨n, (List.perm_insertionSort _ n_t).mem_iff.1 hn, rfl, by omega⟩

theorem t_p_take (bsa bsb : List (Finset Lab)) (i j : ℕ) (hi : i < bsa.length)
    (hj : j < bsa.length) :
    t_p bsa bsb i j = t_p bsa (bsb.take bsa.length) i j := by
  unfold t_p
  rw [getD_take bsb bsa.length i hi, getD_take bsb bsa.length j hj]

theorem position_step_congr {bsa bsb bsb' : List (Finset Lab)} {i j : ℕ}
    (h : t_p bsa bsb i j = t_p bsa bsb' i j) (st : TState) :
    position_step bsa bsb i j st = position_step bsa bsb' i j st := by
  unfold position_step
  rw [h]

theorem find_transpositions_take (bsa bsb : List (Finset Lab)) (n_t : List ℕ)
    (os : List (ℕ × Difference)) :
    find_transpositions bsa bsb n_t os =
      find_transpositions bsa (bsb.take bsa.length) n_t os := by
  unfold find_transpositions
  have hfold : ∀ (ps : List (ℕ × ℕ)), (∀ pr ∈ ps, pr.1 < bsa.length ∧ pr.2 < bsa.length) →
      ∀ st : TState,
      ps.foldl (fun st p => position_step bsa bsb p.1 p.2 st) st =
        ps.foldl (fun st p => position_step bsa (bsb.take bsa.length) p.1 p.2 st) st := by
    intro ps
    induction ps with
    | nil => intro _ st; rfl
    | cons p ps ih =>
      intro hb st
      have h1 := hb p (List.mem_cons_self p ps)
      rw [List.foldl_cons, List.foldl_cons,
        position_step_congr (t_p_take bsa bsb p.1 p.2 h1.1 h1.2) st]
      exact ih (fun q hq => hb q (List.mem_cons_of_mem p hq)) _
  rw [hfold (scan_pairs bsa.length n_t) ?_]
  intro pr hpr
  obtain ⟨n, _, heq, hlt⟩ := scan_pairs_bounds hpr
  exact ⟨by omega, hlt⟩

/-- C10: when `boundary_string_b` is strictly longer, no error is raised
and the decomposition is exactly that of `boundary_string_a` against the
length-`|boundary_string_a|` prefix of `boundary_string_b`; positions
beyond the prefix contribute nothing. -/
theorem boundary_edit_distance_prefix (bsa bsb : List (Finset Lab)) (n_t : ℕ)
    (h : bsa.length < bsb.length) :
    boundary_edit_distance bsa bsb n_t =
      boundary_edit_distance bsa (bsb.take bsa.length) n_t := by
  have hzip : bsa.zip bsb = bsa.zip (bsb.take bsa.length) := zip_take_right bsa bsb
  have hose : optional_set_edits bsa bsb = optional_set_edits bsa (bsb.take bsa.length) := by
    unfold optional_set_edits
    rw [hzip]
  simp only [boundary_edit_distance]
  rw [hose, find_transpositions_take]

/-- Witness for C10: `[{1}]` against the longer `[{1}, {2}]`. -/
theorem boundary_edit_distance_prefix_witness :
    ([({1} : Finset Lab)].length < [({1} : Finset Lab), {2}].length) ∧
      boundary_edit_distance [({1} : Finset Lab)] [{1}, {2}] 2 =
        boundary_edit_distance [({1} : Finset Lab)] ([({1} : Finset Lab), {2}].take 1) 2 :=
  ⟨by decide, boundary_edit_distance_prefix [{1}] [{1}, {2}] 2 (by decide)⟩

/-! ### Association-list operations -/

theorem lookup_mem {os : List (ℕ × Difference)} {p : ℕ} {df : Difference}
    (h : os.lookup p = some df) : (p, df) ∈ os := by
  induction os with
  | nil => cases h
  | cons e es ih =>
    rcases e with ⟨k, v⟩
    rw [List.lookup_cons] at h
    by_cases hk : p = k
    · subst hk
      simp only [beq_self_eq_true] at h
      cases h
      exact List.mem_cons_self _ _
    · have hb : (p == k) = false := beq_eq_false_iff_ne.2 hk
      rw [hb] at h
      exact List.mem_cons_of_mem _ (ih h)

theorem lookup_updateOpt (os : List (ℕ × Difference)) (p q : ℕ)
    (f : Difference → Difference) :
    (updateOpt os p f).lookup q =
      if q = p then (os.lookup q).map f else os.lookup q := by
  induction os with
  | nil => simp [updateOpt]
  | cons e es ih =>
    rcases e with ⟨k, v⟩
    show List.lookup q ((if k = p then (k, f v) else (k, v)) :: updateOpt es p f) = _
    by_cases hkp : k = p
    · subst hkp
      rw [if_pos rfl]
      by_cases hq : q = k
      · subst hq
        simp [List.lookup_cons]
      · have hb : (q == k) = false := beq_eq_false_iff_ne.2 hq
        rw [List.lookup_cons, List.lookup_cons]
        simp only [hb]
        rw [ih]
    · rw [if_neg hkp]
      by_cases hq : q = k
      · subst hq
        have hqp : ¬(q = p) := hkp
        rw [List.lookup_cons, List.lookup_cons]
        simp only [beq_self_eq_true]
        rw [if_neg hqp]
      · have hb : (q == k) = false := beq_eq_false_iff_ne.2 hq
        rw [List.lookup_cons, List.lookup_cons]
        simp only [hb]
        exact ih

theorem discardLab_default (d : Lab) : discardLab ⟨∅, ∅, ∅⟩ d = ⟨∅, ∅, ∅⟩ := by
  simp [discardLab]

theorem lookupDiff_updateOpt_discard (os : List (ℕ × Difference)) (p q : ℕ) (d : Lab) :
    lookupDiff (updateOpt os p (discardLab · d)) q =
      if q = p then discardLab (lookupDiff os q) d else lookupDiff os q := by
  unfold lookupDiff
  rw [lookup_updateOpt]
  by_cases hq : q = p
  · rw [if_pos hq, if_pos hq]
    cases os.lookup q with
    | none => simp [discardLab_default]
    | some v => simp
  · rw [if_neg hq, if_neg hq]

/-! ### Claimed labels -/

theorem mem_claimed {ts : List Transposition} {p : ℕ} {x : Lab} :
    x ∈ claimed ts p ↔ ∃ t ∈ ts, touchesB t p ∧ t.type = x := by
  simp only [claimed, List.mem_toFinset, List.mem_map, List.mem_filter]
  constructor
  · rintro ⟨t, ⟨ht, htp⟩, rfl⟩
    exact ⟨t, ht, htp, rfl⟩
  · rintro ⟨t, ht, htp, rfl⟩
    exact ⟨t, ⟨ht, htp⟩, rfl⟩

theorem claimed_nil (p : ℕ) : claimed [] p = ∅ := rfl

theorem claimed_append_single (ts : List Transposition) (t : Transposition) (p : ℕ) :
    claimed (ts ++ [t]) p =
      claimed ts p ∪ (if touchesB t p then {t.type} else ∅) := by
  unfold claimed
  rw [List.filter_append, List.map_append, List.toFinset_append]
  congr 1
  by_cases h : touchesB t p
  · rw [if_pos h]
    simp [List.filter_cons, h]
  · rw [if_neg h]
    simp only [List.filter_cons, List.filter_nil]
    rw [if_neg (by simpa using h)]
    rfl

theorem claimed_subset_origD {bsa bsb : List (Finset Lab)} {ts : List Transposition}
    (hchain : TransChain bsa bsb ts) (p : ℕ) :
    claimed ts p ⊆ origD bsa bsb p := by
  intro x hx
  obtain ⟨t, ht, htp, rfl⟩ := mem_claimed.1 hx
  obtain ⟨_, _, _, h1, h2⟩ := hchain.1 t ht
  have htp2 : t.start = p ∨ t.stop = p := by simpa [touchesB] using htp
  rcases htp2 with h | h
  · exact h ▸ h1
  · exact h ▸ h2

theorem claimed_card {bsa bsb : List (Finset Lab)} {ts : List Transposition}
    (hchain : TransChain bsa bsb ts) (p : ℕ) :
    (claimed ts p).card = (ts.filter (fun t => touchesB t p)).length := by
  unfold claimed
  rw [List.toFinset_card_of_nodup, List.length_map]
  have hpw : (ts.filter (fun t => touchesB t p)).Pairwise
      (fun t1 t2 => t1.type ≠ t2.type) := by
    have h1 := hchain.2.filter (fun t => touchesB t p)
    refine h1.imp_of_mem ?_
    intro t1 t2 h1m h2m hR heq
    obtain ⟨hn1, hn2, hn3, hn4⟩ := hR heq
    have ht1 : t1.start = p ∨ t1.stop = p := by
      simpa [touchesB] using (List.mem_filter.1 h1m).2
    have ht2 : t2.start = p ∨ t2.stop = p := by
      simpa [touchesB] using (List.mem_filter.1 h2m).2
    rcases ht1 with ha | ha <;> rcases ht2 with hb | hb
    · exact hn1 (ha.trans hb.symm)
    · exact hn2 (ha.trans hb.symm)
    · exact hn3 (ha.trans hb.symm)
    · exact hn4 (ha.trans hb.symm)
  exact List.Pairwise.map Transposition.type (fun a b h => h) hpw

/-! ### The difference mapping as a function of the accepted records -/

theorem filterMap_congr_mem {α β : Type} {l : List α} {f g : α → Option β}
    (h : ∀ a ∈ l, f a = g a) : l.filterMap f = l.filterMap g := by
  induction l with
  | nil => rfl
  | cons x xs ih =>
    rw [List.filterMap_cons, List.filterMap_cons, h x (List.mem_cons_self x xs),
      ih (fun a ha => h a (List.mem_cons_of_mem x ha))]

theorem lookup_filterMap_nodup (l : List ℕ) (hnd : l.Nodup) (q : ℕ)
    (P : ℕ → Prop) [DecidablePred P] (g : ℕ → Difference) :
    ((l.filterMap (fun p => if P p then some (p, g p) else none)).lookup q) =
      if q ∈ l ∧ P q then some (g q) else none := by
  induction l with
  | nil => simp
  | cons k l ih =>
    have hnd2 : l.Nodup := hnd.of_cons
    rw [List.filterMap_cons]
    by_cases hk : P k
    · rw [if_pos hk]
      rw [List.lookup_cons]
      by_cases hq : q = k
      · subst hq
        simp [hk]
      · have hb : (q == k) = false := beq_eq_false_iff_ne.2 hq
        simp only [hb]
        rw [ih hnd2]
        by_cases hql : q ∈ l ∧ P q
        · rw [if_pos hql, if_pos ⟨List.mem_cons_of_mem k hql.1, hql.2⟩]
        · rw [if_neg hql, if_neg ?_]
          rintro ⟨hmem, hP⟩
          rcases List.mem_cons.1 hmem with h | h
          · exact hq h
          · exact hql ⟨h, hP⟩
    · rw [if_neg hk, ih hnd2]
      by_cases hq : q = k
      · subst hq
        rw [if_neg (fun h => hk h.2), if_neg ?_]
        · rintro ⟨hmem, hP⟩
          exact hk hP
      · by_cases hql : q ∈ l ∧ P q
        · rw [if_pos hql, if_pos ⟨List.mem_cons_of_mem k hql.1, hql.2⟩]
        · rw [if_neg hql, if_neg ?_]
          rintro ⟨hmem, hP⟩
          rcases List.mem_cons.1 hmem with h | h
          · exact hq h
          · exact hql ⟨h, hP⟩

theorem osOf_lookup (bsa bsb : List (Finset Lab)) (ts : List Transposition) (q : ℕ) :
    (osOf bsa bsb ts).lookup q =
      if q < (bsa.zip bsb).length ∧ origD bsa bsb q ≠ ∅ then
        some ⟨origD bsa bsb q \ claimed ts q, origA bsa bsb q \ claimed ts q,
              origB bsa bsb q \ claimed ts q⟩
      else none := by
  unfold osOf
  rw [lookup_filterMap_nodup _ (List.nodup_range _) q _
    (fun p => ⟨origD bsa bsb p \ claimed ts p, origA bsa bsb p \ claimed ts p,
               origB bsa bsb p \ claimed ts p⟩)]
  simp only [List.mem_range]

theorem origA_subset_origD (bsa bsb : List (Finset Lab)) (p : ℕ) :
    origA bsa bsb p ⊆ origD bsa bsb p :=
  Finset.subset_union_left

theorem origB_subset_origD (bsa bsb : List (Finset Lab)) (p : ℕ) :
    origB bsa bsb p ⊆ origD bsa bsb p :=
  Finset.subset_union_right

theorem lookupDiff_osOf (bsa bsb : List (Finset Lab)) (ts : List Transposition) {q : ℕ}
    (hq : q < (bsa.zip bsb).length) :
    lookupDiff (osOf bsa bsb ts) q =
      ⟨origD bsa bsb q \ claimed ts q, origA bsa bsb q \ claimed ts q,
       origB bsa bsb q \ claimed ts q⟩ := by
  unfold lookupDiff
  rw [osOf_lookup]
  by_cases hd : origD bsa bsb q ≠ ∅
  · rw [if_pos ⟨hq, hd⟩]
    rfl
  · rw [if_neg (fun h => hd h.2)]
    push_neg at hd
    have hA : origA bsa bsb q = ∅ :=
      Finset.subset_empty.1 (hd ▸ origA_subset_origD bsa bsb q)
    have hB : origB bsa bsb q = ∅ :=
      Finset.subset_empty.1 (hd ▸ origB_subset_origD bsa bsb q)
    rw [hd, hA, hB]
    simp [Option.getD]

theorem updateOpt_filterMap (K i : ℕ) (P : ℕ → Prop) [DecidablePred P]
    (g : ℕ → Difference) (f : Difference → Difference) :
    updateOpt ((List.range K).filterMap (fun p => if P p then some (p, g p) else none)) i f =
      (List.range K).filterMap (fun p =>
        if P p then some (p, if p = i then f (g p) else g p) else none) := by
  unfold updateOpt
  rw [List.map_filterMap]
  apply filterMap_congr_mem
  intro p _
  by_cases hP : P p
  · rw [if_pos hP, if_pos hP]
    by_cases hi : p = i
    · simp [hi]
    · simp [hi]
  · rw [if_neg hP, if_neg hP]
    rfl

theorem discard_residual (D A B C : Finset Lab) (d : Lab) :
    discardLab ⟨D \ C, A \ C, B \ C⟩ d =
      ⟨D \ (C ∪ {d}), A \ (C ∪ {d}), B \ (C ∪ {d})⟩ := by
  unfold discardLab
  simp only [Finset.erase_eq, sdiff_sdiff_left, Finset.sup_eq_union]

theorem touchesB_mk_start (i j : ℕ) (d : Lab) : touchesB ⟨i, j, d⟩ i = true := by
  simp [touchesB]

theorem touchesB_mk_stop (i j : ℕ) (d : Lab) : touchesB ⟨i, j, d⟩ j = true := by
  simp [touchesB]

theorem touchesB_mk_other {i j p : ℕ} (d : Lab) (h1 : p ≠ i) (h2 : p ≠ j) :
    touchesB ⟨i, j, d⟩ p = false := by
  simp only [touchesB, Bool.or_eq_false_iff, decide_eq_false_iff_not]
  exact ⟨fun h => h1 h.symm, fun h => h2 h.symm⟩

theorem osOf_accept (bsa bsb : List (Finset Lab)) (ts : List Transposition)
    (i j : ℕ) (d : Lab) (hij : i ≠ j) :
    updateOpt (updateOpt (osOf bsa bsb ts) i (discardLab · d)) j (discardLab · d) =
      osOf bsa bsb (ts ++ [⟨i, j, d⟩]) := by
  unfold osOf
  rw [updateOpt_filterMap, updateOpt_filterMap]
  apply filterMap_congr_mem
  intro p _
  by_cases hP : origD bsa bsb p ≠ ∅
  · rw [if_pos hP, if_pos hP]
    refine congrArg some (congrArg (Prod.mk p) ?_)
    beta_reduce
    by_cases hpi : p = i
    · rw [if_neg (fun h => hij (hpi.symm.trans h)), if_pos hpi]
      have hC : claimed (ts ++ [⟨i, j, d⟩]) p = claimed ts p ∪ {d} := by
        rw [claimed_append_single, hpi]
        simp [touchesB_mk_start]
      rw [hC]
      exact discard_residual _ _ _ _ d
    · by_cases hpj : p = j
      · rw [if_pos hpj, if_neg hpi]
        have hC : claimed (ts ++ [⟨i, j, d⟩]) p = claimed ts p ∪ {d} := by
          rw [claimed_append_single, hpj]
          simp [touchesB_mk_stop]
        rw [hC]
        exact discard_residual _ _ _ _ d
      · have hC : claimed (ts ++ [⟨i, j, d⟩]) p = claimed ts p := by
          rw [claimed_append_single, touchesB_mk_other d hpi hpj]
          simp
        rw [if_neg hpj, if_neg hpi, hC]
  · rw [if_neg hP, if_neg hP]

theorem overlaps_existing_false_iff (i j : ℕ) (d : Lab) (ts : List Transposition) :
    overlaps_existing i j d ts = false ↔
      ∀ t ∈ ts, t.type = d → t.start ≠ i ∧ t.stop ≠ i ∧ t.start ≠ j ∧ t.stop ≠ j := by
  unfold overlaps_existing
  simp only [List.any_eq_false, Bool.and_eq_true, decide_eq_true_eq, Bool.or_eq_true,
    not_and, not_or]
  exact forall_congr' (fun t => forall_congr' (fun ht => forall_congr' (fun htype =>
    Iff.intro (fun h => ⟨h.1.1.1, h.1.1.2, h.1.2, h.2⟩)
      (fun h => ⟨⟨⟨h.1, h.2.1⟩, h.2.2.1⟩, h.2.2.2⟩))))

/-! ### Invariance of the transposition scan -/

theorem transp_step_StInv {bsa bsb : List (Finset Lab)} {st : TState} {i j : ℕ} {d : Lab}
    (hinv : StInv bsa bsb st) (hij : i < j) (hjK : j < (bsa.zip bsb).length)
    (hdi : d ∈ origD bsa bsb i) (hdj : d ∈ origD bsa bsb j) :
    StInv bsa bsb (transp_step i j d st) := by
  unfold transp_step
  by_cases hcond : (!(overlaps_existing i j d st.transpositions) &&
      !(has_substitutions i j d st.options_set)) = true
  · rw [if_pos hcond]
    have hov : overlaps_existing i j d st.transpositions = false := by
      cases h : overlaps_existing i j d st.transpositions
      · rfl
      · rw [h] at hcond
        simp at hcond
    have hovp := (overlaps_existing_false_iff i j d st.transpositions).1 hov
    constructor
    · show updateOpt (updateOpt st.options_set i (fun x => discardLab x d)) j
          (fun x => discardLab x d) =
        osOf bsa bsb (st.transpositions ++ [⟨i, j, d⟩])
      rw [hinv.1]
      exact osOf_accept bsa bsb st.transpositions i j d (Nat.ne_of_lt hij)
    · constructor
      · intro t ht
        rcases List.mem_append.1 ht with h | h
        · exact hinv.2.1 t h
        · rw [List.mem_singleton.1 h]
          exact ⟨lt_trans hij hjK, hjK, Nat.ne_of_lt hij, hdi, hdj⟩
      · rw [List.pairwise_append]
        refine ⟨hinv.2.2, List.pairwise_singleton _ _, ?_⟩
        intro t1 h1 t2 h2
        rw [List.mem_singleton.1 h2]
        intro htype
        obtain ⟨hn1, hn2, hn3, hn4⟩ := hovp t1 h1 htype
        exact ⟨hn1, hn3, hn2, hn4⟩
  · rw [if_neg hcond]
    exact hinv

theorem t_p_subset_left (bsa bsb : List (Finset Lab)) (i j : ℕ) :
    t_p bsa bsb i j ⊆ origD bsa bsb i := by
  intro x hx
  unfold t_p at hx
  exact Finset.mem_inter.1 (Finset.mem_inter.1 (Finset.mem_inter.1 hx).1).1 |>.1

theorem t_p_subset_right (bsa bsb : List (Finset Lab)) (i j : ℕ) :
    t_p bsa bsb i j ⊆ origD bsa bsb j := by
  intro x hx
  unfold t_p at hx
  exact Finset.mem_inter.1 (Finset.mem_inter.1 (Finset.mem_inter.1 hx).1).1 |>.2

theorem position_step_StInv {bsa bsb : List (Finset Lab)} {st : TState} {i j : ℕ}
    (hinv : StInv bsa bsb st) (hij : i < j) (hjK : j < (bsa.zip bsb).length) :
    StInv bsa bsb (position_step bsa bsb i j st) := by
  unfold position_step
  have hl : ∀ x ∈ sortedList (t_p bsa bsb i j),
      x ∈ origD bsa bsb i ∧ x ∈ origD bsa bsb j := by
    intro x hx
    have hx2 := sortedList_mem.1 hx
    exact ⟨t_p_subset_left bsa bsb i j hx2, t_p_subset_right bsa bsb i j hx2⟩
  generalize sortedList (t_p bsa bsb i j) = l at hl ⊢
  induction l generalizing st with
  | nil => exact hinv
  | cons x xs ih =>
    rw [List.foldl_cons]
    have hx := hl x (List.mem_cons_self x xs)
    exact ih (transp_step_StInv hinv hij hjK hx.1 hx.2)
      (fun y hy => hl y (List.mem_cons_of_mem x hy))

theorem scan_fold_StInv {bsa bsb : List (Finset Lab)} (hlen : bsa.length ≤ bsb.length)
    {n_t : List ℕ} (hspans : ∀ n ∈ n_t, 2 ≤ n) {st : TState}
    (hinv : StInv bsa bsb st) :
    StInv bsa bsb ((scan_pairs bsa.length n_t).foldl
      (fun st p => position_step bsa bsb p.1 p.2 st) st) := by
  have hK : (bsa.zip bsb).length = bsa.length := by
    rw [List.length_zip]
    omega
  have hps : ∀ pr ∈ scan_pairs bsa.length n_t,
      pr.1 < pr.2 ∧ pr.2 < (bsa.zip bsb).length := by
    intro pr hpr
    obtain ⟨n, hn, heq, hlt⟩ := scan_pairs_bounds hpr
    have h2 := hspans n hn
    exact ⟨by omega, by omega⟩
  generalize scan_pairs bsa.length n_t = ps at hps ⊢
  induction ps generalizing st with
  | nil => exact hinv
  | cons p ps ih =>
    rw [List.foldl_cons]
    have hp := hps p (List.mem_cons_self p ps)
    exact ih (position_step_StInv hinv hp.1 hp.2)
      (fun q hq => hps q (List.mem_cons_of_mem p hq))

/-! ### The initial difference mapping -/

theorem enumFrom_filterMap {α β : Type} (l : List α) (dflt : α) (n : ℕ)
    (g : ℕ × α → Option β) :
    (l.enumFrom n).filterMap g =
      (List.range l.length).filterMap (fun p => g (n + p, l.getD p dflt)) := by
  induction l generalizing n with
  | nil => rfl
  | cons x xs ih =>
    rw [List.length_cons, List.range_succ_eq_map]
    have htail : (xs.enumFrom (n + 1)).filterMap g =
        ((List.range xs.length).map Nat.succ).filterMap
          (fun p => g (n + p, (x :: xs).getD p dflt)) := by
      rw [List.filterMap_map, ih (n + 1)]
      apply filterMap_congr_mem
      intro p _
      simp only [Function.comp]
      rw [show n + Nat.succ p = n + 1 + p from by omega]
      rfl
    show List.filterMap g ((n, x) :: xs.enumFrom (n + 1)) = _
    rw [List.filterMap_cons, List.filterMap_cons]
    simp only [List.getD_cons_zero, Nat.add_zero]
    rw [htail]

theorem zip_getD (l1 l2 : List (Finset Lab)) {p : ℕ} (hp : p < (l1.zip l2).length) :
    (l1.zip l2).getD p (∅, ∅) = (l1.getD p ∅, l2.getD p ∅) := by
  induction l1 generalizing l2 p with
  | nil => simp at hp
  | cons x xs ih =>
    cases l2 with
    | nil => simp at hp
    | cons y ys =>
      cases p with
      | zero => simp
      | succ p =>
        simp only [List.zip_cons_cons, List.getD_cons_succ]
        exact ih ys (by simpa using hp)

theorem optional_set_edits_eq_osOf_nil (bsa bsb : List (Finset Lab)) :
    optional_set_edits bsa bsb = osOf bsa bsb [] := by
  unfold optional_set_edits osOf
  rw [show (bsa.zip bsb).enum = (bsa.zip bsb).enumFrom 0 from rfl]
  rw [enumFrom_filterMap (bsa.zip bsb) (∅, ∅) 0]
  apply filterMap_congr_mem
  intro p hp
  rw [List.mem_range] at hp
  rw [zip_getD bsa bsb hp]
  simp only [Nat.zero_add, claimed_nil, Finset.sdiff_empty]
  rfl

theorem TransChain_nil (bsa bsb : List (Finset Lab)) : TransChain bsa bsb [] :=
  ⟨fun t ht => absurd ht (List.not_mem_nil t), List.Pairwise.nil⟩

theorem find_transpositions_StInv (bsa bsb : List (Finset Lab))
    (hlen : bsa.length ≤ bsb.length) (n_t : List ℕ) (hspans : ∀ n ∈ n_t, 2 ≤ n) :
    (find_transpositions bsa bsb n_t (optional_set_edits bsa bsb)).2 =
      osOf bsa bsb (find_transpositions bsa bsb n_t (optional_set_edits bsa bsb)).1 ∧
    TransChain bsa bsb (find_transpositions bsa bsb n_t (optional_set_edits bsa bsb)).1 := by
  have hinit : StInv bsa bsb ⟨optional_set_edits bsa bsb, []⟩ :=
    ⟨optional_set_edits_eq_osOf_nil bsa bsb, TransChain_nil bsa bsb⟩
  have h := scan_fold_StInv hlen hspans hinit
  exact ⟨h.1, h.2⟩

/-! ### Counting claimed occurrences -/

theorem sum_map_add {α : Type} (l : List α) (f g : α → ℕ) :
    (l.map (fun p => f p + g p)).sum = (l.map f).sum + (l.map g).sum := by
  induction l with
  | nil => rfl
  | cons x xs ih =>
    simp only [List.map_cons, List.sum_cons, ih]
    omega

theorem sum_map_two {α : Type} (l : List α) (f : α → ℕ) :
    (l.map (fun x => 2 * f x)).sum = 2 * (l.map f).sum := by
  induction l with
  | nil => rfl
  | cons x xs ih =>
    simp only [List.map_cons, List.sum_cons, ih]
    omega

theorem single_indicator (K a : ℕ) :
    ((List.range K).map (fun p => if p = a then 1 else 0)).sum = if a < K then 1 else 0 := by
  induction K with
  | zero => simp
  | succ K ih =>
    rw [List.range_succ, List.map_append, List.sum_append, ih]
    by_cases h : a < K
    · rw [if_pos h, if_pos (by omega)]
      simp [Nat.ne_of_gt h]
    · by_cases h2 : K = a
      · subst h2
        rw [if_neg h, if_pos (by omega)]
        simp
      · rw [if_neg h, if_neg (by omega)]
        simp [h2]

theorem touches_indicator {K : ℕ} {t : Transposition} (hne : t.start ≠ t.stop)
    (h1 : t.start < K) (h2 : t.stop < K) :
    ((List.range K).map (fun p => if touchesB t p then 1 else 0)).sum = 2 := by
  have hpt : ∀ p, (if touchesB t p then 1 else 0) =
      (if p = t.start then 1 else 0) + (if p = t.stop then 1 else 0) := by
    intro p
    by_cases ha : p = t.start
    · subst ha
      have htch : touchesB t t.start = true := by simp [touchesB]
      simp [htch, hne]
    · by_cases hb : p = t.stop
      · subst hb
        have htch : touchesB t t.stop = true := by simp [touchesB]
        simp [htch, ha]
      · have htch : touchesB t p = false := by
          simp only [touchesB, Bool.or_eq_false_iff, decide_eq_false_iff_not]
          exact ⟨fun h => ha h.symm, fun h => hb h.symm⟩
        simp [htch, ha, hb]
  rw [List.map_congr_left (fun p _ => hpt p), sum_map_add, single_indicator, single_indicator,
    if_pos h1, if_pos h2]

theorem sum_filter_touches (K : ℕ) (ts : List Transposition)
    (h : ∀ t ∈ ts, t.start ≠ t.stop ∧ t.start < K ∧ t.stop < K) :
    ((List.range K).map (fun p => (ts.filter (fun t => touchesB t p)).length)).sum =
      2 * ts.length := by
  induction ts with
  | nil => simp
  | cons t ts ih =>
    have hpt : ∀ p, ((t :: ts).filter (fun t => touchesB t p)).length =
        (if touchesB t p then 1 else 0) + (ts.filter (fun t => touchesB t p)).length := by
      intro p
      rw [List.filter_cons]
      by_cases htch : touchesB t p
      · rw [if_pos htch, if_pos htch, List.length_cons]
        omega
      · rw [if_neg htch, if_neg htch]
        omega
    obtain ⟨hne, h1, h2⟩ := h t (List.mem_cons_self t ts)
    rw [List.map_congr_left (fun p _ => hpt p), sum_map_add,
      touches_indicator hne h1 h2, ih (fun t2 ht2 => h t2 (List.mem_cons_of_mem t ht2))]
    simp only [List.length_cons]
    omega

theorem sum_card_claimed (bsa bsb : List (Finset Lab)) (ts : List Transposition)
    (hchain : TransChain bsa bsb ts) :
    ((List.range (bsa.zip bsb).length).map (fun p => (claimed ts p).card)).sum =
      2 * ts.length := by
  rw [List.map_congr_left (fun p _ => claimed_card hchain p)]
  apply sum_filter_touches
  intro t ht
  obtain ⟨hs1, hs2, hs3, _, _⟩ := hchain.1 t ht
  exact ⟨hs3, hs1, hs2⟩

theorem sum_residual_claimed (bsa bsb : List (Finset Lab)) (ts : List Transposition)
    (hchain : TransChain bsa bsb ts) :
    ((List.range (bsa.zip bsb).length).map
        (fun p => (origD bsa bsb p \ claimed ts p).card)).sum + 2 * ts.length =
      ((List.range (bsa.zip bsb).length).map (fun p => (origD bsa bsb p).card)).sum := by
  rw [← sum_card_claimed bsa bsb ts hchain, ← sum_map_add]
  apply congrArg List.sum
  apply List.map_congr_left
  intro p _
  exact Finset.card_sdiff_add_card_eq_card (claimed_subset_origD hchain p)

/-! ### Summing over the difference mapping -/

theorem filterMap_map_sum (l : List ℕ) (P : ℕ → Prop) [DecidablePred P]
    (g : ℕ → Difference) (h : Difference → ℕ) :
    ((l.filterMap (fun p => if P p then some (p, g p) else none)).map
        (fun e => h e.2)).sum =
      (l.map (fun p => if P p then h (g p) else 0)).sum := by
  induction l with
  | nil => rfl
  | cons x xs ih =>
    rw [List.filterMap_cons]
    by_cases hP : P x
    · rw [if_pos hP, List.map_cons, List.sum_cons, List.map_cons, List.sum_cons, if_pos hP, ih]
    · rw [if_neg hP, List.map_cons, List.sum_cons, if_neg hP, ih]
      omega

theorem osOf_sum (bsa bsb : List (Finset Lab)) (ts : List Transposition)
    (h : Difference → ℕ) (h0 : h ⟨∅, ∅, ∅⟩ = 0) :
    ((osOf bsa bsb ts).map (fun e => h e.2)).sum =
      ((List.range (bsa.zip bsb).length).map
        (fun p => h ⟨origD bsa bsb p \ claimed ts p, origA bsa bsb p \ claimed ts p,
                     origB bsa bsb p \ claimed ts p⟩)).sum := by
  unfold osOf
  rw [filterMap_map_sum]
  apply congrArg List.sum
  apply List.map_congr_left
  intro p _
  by_cases hP : origD bsa bsb p ≠ ∅
  · rw [if_pos hP]
  · rw [if_neg hP]
    push_neg at hP
    have hA : origA bsa bsb p = ∅ :=
      Finset.subset_empty.1 (hP ▸ origA_subset_origD bsa bsb p)
    have hB : origB bsa bsb p = ∅ :=
      Finset.subset_empty.1 (hP ▸ origB_subset_origD bsa bsb p)
    rw [hP, hA, hB]
    simp [h0]

/-! ### Assembling the decomposition -/

theorem foldl_accumulate (os : List (ℕ × Difference)) (a0 : List Addition)
    (s0 : List Substitution) :
    (os.foldl (fun acc e =>
        (acc.1 ++ (additions_substitutions_sets e.2.sim e.2.a_b e.2.b_a).1,
         acc.2 ++ (additions_substitutions_sets e.2.sim e.2.a_b e.2.b_a).2)) (a0, s0)).1.length =
      a0.length + (os.map
        (fun e => (additions_substitutions_sets e.2.sim e.2.a_b e.2.b_a).1.length)).sum ∧
    (os.foldl (fun acc e =>
        (acc.1 ++ (additions_substitutions_sets e.2.sim e.2.a_b e.2.b_a).1,
         acc.2 ++ (additions_substitutions_sets e.2.sim e.2.a_b e.2.b_a).2)) (a0, s0)).2.length =
      s0.length + (os.map
        (fun e => (additions_substitutions_sets e.2.sim e.2.a_b e.2.b_a).2.length)).sum := by
  induction os generalizing a0 s0 with
  | nil => simp
  | cons e es ih =>
    rw [List.foldl_cons]
    obtain ⟨ih1, ih2⟩ := ih (a0 ++ (additions_substitutions_sets e.2.sim e.2.a_b e.2.b_a).1)
      (s0 ++ (additions_substitutions_sets e.2.sim e.2.a_b e.2.b_a).2)
    constructor
    · rw [ih1]
      simp only [List.length_append, List.map_cons, List.sum_cons]
      omega
    · rw [ih2]
      simp only [List.length_append, List.map_cons, List.sum_cons]
      omega

theorem origD_eq_union (bsa bsb : List (Finset Lab)) (p : ℕ) :
    origD bsa bsb p = origA bsa bsb p ∪ origB bsa bsb p := rfl

theorem residual_wf (bsa bsb : List (Finset Lab)) (p : ℕ) (C : Finset Lab) :
    origD bsa bsb p \ C = (origA bsa bsb p \ C) ∪ (origB bsa bsb p \ C) ∧
      Disjoint (origA bsa bsb p \ C) (origB bsa bsb p \ C) := by
  constructor
  · rw [origD_eq_union, Finset.union_sdiff_distrib]
  · exact Disjoint.mono (Finset.sdiff_subset) (Finset.sdiff_subset) disjoint_sdiff_sdiff

theorem osOf_entry_conservation (bsa bsb : List (Finset Lab)) (ts : List Transposition)
    (e : ℕ × Difference) (he : e ∈ osOf bsa bsb ts) :
    (additions_substitutions_sets e.2.sim e.2.a_b e.2.b_a).1.length +
      2 * (additions_substitutions_sets e.2.sim e.2.a_b e.2.b_a).2.length =
      e.2.sim.card := by
  unfold osOf at he
  obtain ⟨p, _, hsome⟩ := List.mem_filterMap.1 he
  by_cases hP : origD bsa bsb p ≠ ∅
  · rw [if_pos hP] at hsome
    obtain rfl := Option.some.inj hsome
    obtain ⟨hu, hdisj⟩ := residual_wf bsa bsb p (claimed ts p)
    show (additions_substitutions_sets (origD bsa bsb p \ claimed ts p)
        (origA bsa bsb p \ claimed ts p) (origB bsa bsb p \ claimed ts p)).1.length +
      2 * (additions_substitutions_sets (origD bsa bsb p \ claimed ts p)
        (origA bsa bsb p \ claimed ts p) (origB bsa bsb p \ claimed ts p)).2.length =
      (origD bsa bsb p \ claimed ts p).card
    rw [hu]
    exact asets_conservation _ _ hdisj
  · rw [if_neg hP] at hsome
    cases hsome

theorem osOf_sum_sim (bsa bsb : List (Finset Lab)) (ts : List Transposition) :
    ((osOf bsa bsb ts).map (fun e => e.2.sim.card)).sum =
      ((List.range (bsa.zip bsb).length).map
        (fun p => (origD bsa bsb p \ claimed ts p).card)).sum := by
  rw [osOf_sum bsa bsb ts (fun df => df.sim.card) (by simp)]

/-- Conservation of the whole decomposition: additions count once,
substitutions and transpositions twice, matching the total number of
differing label occurrences. -/
theorem bed_conservation (bsa bsb : List (Finset Lab)) (n_t : ℕ)
    (hlen : bsa.length = bsb.length) :
    (boundary_edit_distance bsa bsb n_t).1.length +
      2 * (boundary_edit_distance bsa bsb n_t).2.1.length +
      2 * (boundary_edit_distance bsa bsb n_t).2.2.length =
      ((List.range bsa.length).map (fun p => (origD bsa bsb p).card)).sum := by
  have hspans : ∀ n ∈ List.range' 2 (n_t - 1), 2 ≤ n :=
    fun n hn => (List.mem_range'_1.1 hn).1
  obtain ⟨hos, hchain⟩ := find_transpositions_StInv bsa bsb (le_of_eq hlen) _ hspans
  have hK : (bsa.zip bsb).length = bsa.length := by
    rw [List.length_zip]
    omega
  have hbed1 : (boundary_edit_distance bsa bsb n_t).1 =
      ((find_transpositions bsa bsb (List.range' 2 (n_t - 1))
          (optional_set_edits bsa bsb)).2.foldl (fun acc e =>
          (acc.1 ++ (additions_substitutions_sets e.2.sim e.2.a_b e.2.b_a).1,
           acc.2 ++ (additions_substitutions_sets e.2.sim e.2.a_b e.2.b_a).2))
        ([], [])).1 := rfl
  have hbed2 : (boundary_edit_distance bsa bsb n_t).2.1 =
      ((find_transpositions bsa bsb (List.range' 2 (n_t - 1))
          (optional_set_edits bsa bsb)).2.foldl (fun acc e =>
          (acc.1 ++ (additions_substitutions_sets e.2.sim e.2.a_b e.2.b_a).1,
           acc.2 ++ (additions_substitutions_sets e.2.sim e.2.a_b e.2.b_a).2))
        ([], [])).2 := rfl
  have hbed3 : (boundary_edit_distance bsa bsb n_t).2.2 =
      (find_transpositions bsa bsb (List.range' 2 (n_t - 1))
        (optional_set_edits bsa bsb)).1 := rfl
  rw [hbed1, hbed2, hbed3, hos]
  obtain ⟨h1, h2⟩ := foldl_accumulate (osOf bsa bsb
    (find_transpositions bsa bsb (List.range' 2 (n_t - 1))
      (optional_set_edits bsa bsb)).1) [] []
  rw [h1, h2]
  simp only [List.length_nil, Nat.zero_add]
  rw [← sum_map_two, ← sum_map_add,
    congrArg List.sum (List.map_congr_left (fun e he =>
      osOf_entry_conservation bsa bsb _ e he)),
    osOf_sum_sim]
  have hres := sum_residual_claimed bsa bsb
    (find_transpositions bsa bsb (List.range' 2 (n_t - 1))
      (optional_set_edits bsa bsb)).1 hchain
  rw [hK] at hres
  rw [hK]
  exact hres

/-- C1: for equal-length boundary strings and any maximum span,
`|Additions| + 2·|Substitutions| + 2·|Transpositions|` equals the total
count of label occurrences in the per-position symmetric differences of
the two strings: every differing occurrence is accounted for exactly
once. -/
theorem boundary_edit_distance_conservation (bsa bsb : List (Finset Lab)) (n_t : ℕ)
    (hlen : bsa.length = bsb.length) :
    (boundary_edit_distance bsa bsb n_t).1.length +
      2 * (boundary_edit_distance bsa bsb n_t).2.1.length +
      2 * (boundary_edit_distance bsa bsb n_t).2.2.length =
      ((List.range bsa.length).map
        (fun p => (sdiff2 (bsa.getD p ∅) (bsb.getD p ∅)).card)).sum :=
  bed_conservation bsa bsb n_t hlen

/-- Witness for C1 on a pure transposition pair. -/
theorem boundary_edit_distance_conservation_witness :
    ([({1} : Finset Lab), ∅].length = [(∅ : Finset Lab), {1}].length) ∧
      (boundary_edit_distance [({1} : Finset Lab), ∅] [∅, {1}] 2).1.length +
        2 * (boundary_edit_distance [({1} : Finset Lab), ∅] [∅, {1}] 2).2.1.length +
        2 * (boundary_edit_distance [({1} : Finset Lab), ∅] [∅, {1}] 2).2.2.length =
        ((List.range [({1} : Finset Lab), ∅].length).map
          (fun p => (sdiff2 ([({1} : Finset Lab), ∅].getD p ∅)
            ([(∅ : Finset Lab), {1}].getD p ∅)).card)).sum :=
  ⟨by decide, boundary_edit_distance_conservation [{1}, ∅] [∅, {1}] 2 (by decide)⟩

/-! ### Span bounds -/

theorem transp_step_spans {spans : List ℕ} {st : TState} {i j : ℕ} {d : Lab}
    (hspan : ∃ n ∈ spans, j = i + (n - 1))
    (hst : ∀ t ∈ st.transpositions, ∃ n ∈ spans, t.stop = t.start + (n - 1)) :
    ∀ t ∈ (transp_step i j d st).transpositions,
      ∃ n ∈ spans, t.stop = t.start + (n - 1) := by
  unfold transp_step
  by_cases hcond : (!(overlaps_existing i j d st.transpositions) &&
      !(has_substitutions i j d st.options_set)) = true
  · rw [if_pos hcond]
    intro t ht
    rcases List.mem_append.1 ht with h | h
    · exact hst t h
    · rw [List.mem_singleton.1 h]
      exact hspan
  · rw [if_neg hcond]
    exact hst

theorem position_step_spans {bsa bsb : List (Finset Lab)} {spans : List ℕ} {st : TState}
    {i j : ℕ} (hspan : ∃ n ∈ spans, j = i + (n - 1))
    (hst : ∀ t ∈ st.transpositions, ∃ n ∈ spans, t.stop = t.start + (n - 1)) :
    ∀ t ∈ (position_step bsa bsb i j st).transpositions,
      ∃ n ∈ spans, t.stop = t.start + (n - 1) := by
  unfold position_step
  generalize sortedList (t_p bsa bsb i j) = l
  induction l generalizing st with
  | nil => exact hst
  | cons x xs ih =>
    rw [List.foldl_cons]
    exact ih (transp_step_spans hspan hst)

theorem find_transpositions_spans (bsa bsb : List (Finset Lab)) (n_t : List ℕ)
    (os : List (ℕ × Difference)) :
    ∀ t ∈ (find_transpositions bsa bsb n_t os).1,
      ∃ n ∈ n_t, t.stop = t.start + (n - 1) := by
  unfold find_transpositions
  have hps : ∀ pr ∈ scan_pairs bsa.length n_t, ∃ n ∈ n_t, pr.2 = pr.1 + (n - 1) := by
    intro pr hpr
    obtain ⟨n, hn, heq, _⟩ := scan_pairs_bounds hpr
    exact ⟨n, hn, heq⟩
  generalize hgen : scan_pairs bsa.length n_t = ps at hps ⊢
  have hfold : ∀ (ps : List (ℕ × ℕ)) (st : TState),
      (∀ pr ∈ ps, ∃ n ∈ n_t, pr.2 = pr.1 + (n - 1)) →
      (∀ t ∈ st.transpositions, ∃ n ∈ n_t, t.stop = t.start + (n - 1)) →
      ∀ t ∈ (ps.foldl (fun st p => position_step bsa bsb p.1 p.2 st) st).transpositions,
        ∃ n ∈ n_t, t.stop = t.start + (n - 1) := by
    intro ps
    induction ps with
    | nil => intro st _ hst; exact hst
    | cons p ps ih =>
      intro st hpr hst
      rw [List.foldl_cons]
      exact ih _ (fun q hq => hpr q (List.mem_cons_of_mem p hq))
        (position_step_spans (hpr p (List.mem_cons_self p ps)) hst)
  exact hfold ps ⟨os, []⟩ hps (fun t ht => absurd ht (List.not_mem_nil t))

theorem find_transpositions_nil_spans (bsa bsb : List (Finset Lab))
    (os : List (ℕ × Difference)) :
    find_transpositions bsa bsb [] os = ([], os) := rfl

/-- C5: every transposition returned spans between 2 and `n_t` positions
inclusive; a maximum span below 2 yields an empty transposition list and
the disagreements are instead all classified as additions and
substitutions (conservation with no transposition share). -/
theorem boundary_edit_distance_span_bound (bsa bsb : List (Finset Lab)) (n_t : ℕ) :
    (∀ t ∈ (boundary_edit_distance bsa bsb n_t).2.2,
      2 ≤ t.stop - t.start + 1 ∧ t.stop - t.start + 1 ≤ n_t) ∧
    (n_t < 2 → (boundary_edit_distance bsa bsb n_t).2.2 = []) ∧
    (n_t < 2 → bsa.length = bsb.length →
      (boundary_edit_distance bsa bsb n_t).1.length +
        2 * (boundary_edit_distance bsa bsb n_t).2.1.length =
        ((List.range bsa.length).map
          (fun p => (sdiff2 (bsa.getD p ∅) (bsb.getD p ∅)).card)).sum) := by
  have hbed3 : (boundary_edit_distance bsa bsb n_t).2.2 =
      (find_transpositions bsa bsb (List.range' 2 (n_t - 1))
        (optional_set_edits bsa bsb)).1 := rfl
  have hnil : n_t < 2 → (boundary_edit_distance bsa bsb n_t).2.2 = [] := by
    intro hlt
    rw [hbed3, show List.range' 2 (n_t - 1) = [] from by
      rw [show n_t - 1 = 0 from by omega]
      rfl]
    rfl
  refine ⟨?_, hnil, ?_⟩
  · intro t ht
    rw [hbed3] at ht
    obtain ⟨n, hn, heq⟩ := find_transpositions_spans bsa bsb _ _ t ht
    have hn2 := List.mem_range'_1.1 hn
    omega
  · intro hlt hlen
    have hc := bed_conservation bsa bsb n_t hlen
    rw [hnil hlt] at hc
    simp only [List.length_nil, Nat.mul_zero, Nat.add_zero] at hc
    exact hc

/-- Witness for C5: the span of an accepted adjacent transposition, and
the degenerate span parameter `n_t = 1`. -/
theorem boundary_edit_distance_span_bound_witness :
    (2 ≤ (1 : ℕ) - 0 + 1 ∧ (1 : ℕ) - 0 + 1 ≤ 2) ∧
      (boundary_edit_distance [({1} : Finset Lab), ∅] [∅, {1}] 1).2.2 = [] ∧
      (boundary_edit_distance [({1} : Finset Lab), ∅] [∅, {1}] 1).1.length +
        2 * (boundary_edit_distance [({1} : Finset Lab), ∅] [∅, {1}] 1).2.1.length =
        ((List.range [({1} : Finset Lab), ∅].length).map
          (fun p => (sdiff2 ([({1} : Finset Lab), ∅].getD p ∅)
            ([(∅ : Finset Lab), {1}].getD p ∅)).card)).sum := by
  refine ⟨?_, (boundary_edit_distance_span_bound [{1}, ∅] [∅, {1}] 1).2.1 (by decide),
    (boundary_edit_distance_span_bound [{1}, ∅] [∅, {1}] 1).2.2 (by decide) (by decide)⟩
  exact (boundary_edit_distance_span_bound [{1}, ∅] [∅, {1}] 2).1 ⟨0, 1, 1⟩ (by decide)

/-! ### Claimed labels are removed for good -/

theorem not_mem_discard_sim {df : Difference} {x d : Lab} (h : x ∉ df.sim) :
    x ∉ (discardLab df d).sim :=
  fun hmem => h (Finset.mem_of_mem_erase hmem)

theorem not_mem_discard_a {df : Difference} {x d : Lab} (h : x ∉ df.a_b) :
    x ∉ (discardLab df d).a_b :=
  fun hmem => h (Finset.mem_of_mem_erase hmem)

theorem not_mem_discard_b {df : Difference} {x d : Lab} (h : x ∉ df.b_a) :
    x ∉ (discardLab df d).b_a :=
  fun hmem => h (Finset.mem_of_mem_erase hmem)

theorem cleared_after_discards {os : List (ℕ × Difference)} (i j : ℕ) (d : Lab) {x : Lab}
    {q : ℕ} (hsim : x ∉ (lookupDiff os q).sim) (ha : x ∉ (lookupDiff os q).a_b)
    (hb : x ∉ (lookupDiff os q).b_a) :
    x ∉ (lookupDiff (updateOpt (updateOpt os i (discardLab · d)) j (discardLab · d)) q).sim ∧
    x ∉ (lookupDiff (updateOpt (updateOpt os i (discardLab · d)) j (discardLab · d)) q).a_b ∧
    x ∉ (lookupDiff (updateOpt (updateOpt os i (discardLab · d)) j (discardLab · d)) q).b_a := by
  rw [lookupDiff_updateOpt_discard, lookupDiff_updateOpt_discard]
  by_cases hj : q = j
  · rw [if_pos hj]
    by_cases hi : q = i
    · rw [if_pos hi]
      exact ⟨not_mem_discard_sim (not_mem_discard_sim hsim),
        not_mem_discard_a (not_mem_discard_a ha), not_mem_discard_b (not_mem_discard_b hb)⟩
    · rw [if_neg hi]
      exact ⟨not_mem_discard_sim hsim, not_mem_discard_a ha, not_mem_discard_b hb⟩
  · rw [if_neg hj]
    by_cases hi : q = i
    · rw [if_pos hi]
      exact ⟨not_mem_discard_sim hsim, not_mem_discard_a ha, not_mem_discard_b hb⟩
    · rw [if_neg hi]
      exact ⟨hsim, ha, hb⟩

theorem discarded_at_endpoint (os : List (ℕ × Difference)) (i j : ℕ) (d : Lab) (q : ℕ)
    (hq : q = i ∨ q = j) :
    d ∉ (lookupDiff (updateOpt (updateOpt os i (discardLab · d)) j (discardLab · d)) q).sim ∧
    d ∉ (lookupDiff (updateOpt (updateOpt os i (discardLab · d)) j (discardLab · d)) q).a_b ∧
    d ∉ (lookupDiff (updateOpt (updateOpt os i (discardLab · d)) j (discardLab · d)) q).b_a := by
  rw [lookupDiff_updateOpt_discard, lookupDiff_updateOpt_discard]
  by_cases hj : q = j
  · rw [if_pos hj]
    refine ⟨?_, ?_, ?_⟩ <;> simp [discardLab]
  · rw [if_neg hj]
    rcases hq with hi | hj2
    · rw [if_pos hi]
      refine ⟨?_, ?_, ?_⟩ <;> simp [discardLab]
    · exact absurd hj2 hj

theorem transp_step_cleared {st : TState} {i j : ℕ} {d : Lab}
    (h : ∀ t ∈ st.transpositions, ClearedAt st.options_set t) :
    ∀ t ∈ (transp_step i j d st).transpositions,
      ClearedAt (transp_step i j d st).options_set t := by
  unfold transp_step
  by_cases hcond : (!(overlaps_existing i j d st.transpositions) &&
      !(has_substitutions i j d st.options_set)) = true
  · rw [if_pos hcond]
    intro t ht
    rcases List.mem_append.1 ht with hmem | hmem
    · obtain ⟨h1, h2, h3, h4, h5, h6⟩ := h t hmem
      obtain ⟨c1, c2, c3⟩ := cleared_after_discards i j d h1 h2 h3
      obtain ⟨c4, c5, c6⟩ := cleared_after_discards i j d h4 h5 h6
      exact ⟨c1, c2, c3, c4, c5, c6⟩
    · rw [List.mem_singleton.1 hmem]
      obtain ⟨c1, c2, c3⟩ := discarded_at_endpoint st.options_set i j d i (Or.inl rfl)
      obtain ⟨c4, c5, c6⟩ := discarded_at_endpoint st.options_set i j d j (Or.inr rfl)
      exact ⟨c1, c2, c3, c4, c5, c6⟩
  · rw [if_neg hcond]
    exact h

theorem position_step_cleared {bsa bsb : List (Finset Lab)} {st : TState} {i j : ℕ}
    (h : ∀ t ∈ st.transpositions, ClearedAt st.options_set t) :
    ∀ t ∈ (position_step bsa bsb i j st).transpositions,
      ClearedAt (position_step bsa bsb i j st).options_set t := by
  unfold position_step
  generalize sortedList (t_p bsa bsb i j) = l
  induction l generalizing st with
  | nil => exact h
  | cons x xs ih =>
    rw [List.foldl_cons]
    exact ih (transp_step_cleared h)

/-- C7: once a (position, label) pair is claimed by an accepted
transposition, it is removed from the difference, A-only and B-only sets
of both endpoints, and never reappears: in the mapping returned by
`find_transpositions` (the one consumed by the substitution matcher), no
accepted transposition's label is present at either of its endpoints. -/
theorem find_transpositions_clears (bsa bsb : List (Finset Lab)) (n_t : List ℕ)
    (os : List (ℕ × Difference)) :
    ∀ t ∈ (find_transpositions bsa bsb n_t os).1,
      ClearedAt (find_transpositions bsa bsb n_t os).2 t := by
  unfold find_transpositions
  have hfold : ∀ (ps : List (ℕ × ℕ)) (st : TState),
      (∀ t ∈ st.transpositions, ClearedAt st.options_set t) →
      ∀ t ∈ (ps.foldl (fun st p => position_step bsa bsb p.1 p.2 st) st).transpositions,
        ClearedAt (ps.foldl (fun st p => position_step bsa bsb p.1 p.2 st) st).options_set t := by
    intro ps
    induction ps with
    | nil => intro st h; exact h
    | cons p ps ih =>
      intro st h
      rw [List.foldl_cons]
      exact ih _ (position_step_cleared h)
  exact hfold (scan_pairs bsa.length n_t) ⟨os, []⟩ (fun t ht => absurd ht (List.not_mem_nil t))

/-- Witness for C7 on a pure transposition pair. -/
theorem find_transpositions_clears_witness :
    (⟨0, 1, 1⟩ : Transposition) ∈ (find_transpositions [({1} : Finset Lab), ∅] [∅, {1}] [2]
      (optional_set_edits [({1} : Finset Lab), ∅] [∅, {1}])).1 ∧
    ClearedAt (find_transpositions [({1} : Finset Lab), ∅] [∅, {1}] [2]
      (optional_set_edits [({1} : Finset Lab), ∅] [∅, {1}])).2 ⟨0, 1, 1⟩ :=
  ⟨by decide, find_transpositions_clears [{1}, ∅] [∅, {1}] [2]
    (optional_set_edits [{1}, ∅] [∅, {1}]) ⟨0, 1, 1⟩ (by decide)⟩

/-! ### The candidate acceptance rule -/

theorem overlaps_existing_true_iff (i j : ℕ) (d : Lab) (ts : List Transposition) :
    overlaps_existing i j d ts = true ↔
      ∃ t ∈ ts, t.type = d ∧ (t.start = i ∨ t.stop = i ∨ t.start = j ∨ t.stop = j) := by
  unfold overlaps_existing
  simp only [List.any_eq_true, Bool.and_eq_true, decide_eq_true_eq, Bool.or_eq_true]
  constructor
  · rintro ⟨t, ht, htype, hor⟩
    refine ⟨t, ht, htype, ?_⟩
    tauto
  · rintro ⟨t, ht, htype, hor⟩
    refine ⟨t, ht, htype, ?_⟩
    tauto

theorem has_substitutions_true_iff (i j : ℕ) (d : Lab) (os : List (ℕ × Difference))
    (hwf : ∀ e ∈ os, e.2.sim = e.2.a_b ∪ e.2.b_a ∧ Disjoint e.2.a_b e.2.b_a) :
    has_substitutions i j d os = true ↔
      (d ∈ (lookupDiff os i).sim ∧ d ∈ (lookupDiff os j).sim ∧
        0 < min (lookupDiff os i).a_b.card (lookupDiff os i).b_a.card ∧
        0 < min (lookupDiff os j).a_b.card (lookupDiff os j).b_a.card) := by
  unfold has_substitutions
  cases hli : os.lookup i with
  | none =>
    simp only [lookupDiff, hli, Option.getD_none]
    constructor
    · intro h
      cases h
    · rintro ⟨h1, _⟩
      exact absurd h1 (Finset.not_mem_empty d)
  | some di =>
    cases hlj : os.lookup j with
    | none =>
      simp only [lookupDiff, hli, hlj, Option.getD_none, Option.getD_some]
      constructor
      · intro h
        cases h
      · rintro ⟨_, h2, _⟩
        exact absurd h2 (Finset.not_mem_empty d)
    | some dj =>
      obtain ⟨hui, hdi⟩ := hwf (i, di) (lookup_mem hli)
      obtain ⟨huj, hdj⟩ := hwf (j, dj) (lookup_mem hlj)
      have hci : di.sim.card = di.a_b.card + di.b_a.card := by
        rw [hui]
        exact Finset.card_union_of_disjoint hdi
      have hcj : dj.sim.card = dj.a_b.card + dj.b_a.card := by
        rw [huj]
        exact Finset.card_union_of_disjoint hdj
      simp only [lookupDiff, hli, hlj, Option.getD_some, Bool.and_eq_true, decide_eq_true_eq]
      constructor
      · rintro ⟨⟨⟨h1, h2⟩, h3⟩, h4⟩
        refine ⟨h1, h2, ?_, ?_⟩ <;> omega
      · rintro ⟨h1, h2, h3, h4⟩
        refine ⟨⟨⟨h1, h2⟩, ?_⟩, ?_⟩ <;> omega

/-- C6: a candidate label `d` at endpoints `(i, j)` is rejected exactly
when an already-accepted transposition of the same label touches `i` or
`j`, or both endpoints still contain `d` in their residual difference
sets and each endpoint's residual one-sided sets both support at least
one substitution (`min(|a|, |b|) > 0` at each endpoint); otherwise it is
accepted, appending `(i, j, d)` and discarding `d` at both endpoints.
(The scan order over candidates — ascending span, then ascending start —
is the enumeration `scan_pairs`.) -/
theorem transp_step_characterisation (i j : ℕ) (d : Lab) (st : TState)
    (hwf : ∀ e ∈ st.options_set,
      e.2.sim = e.2.a_b ∪ e.2.b_a ∧ Disjoint e.2.a_b e.2.b_a) :
    (transp_step i j d st = st ↔
      ((∃ t ∈ st.transpositions, t.type = d ∧
          (t.start = i ∨ t.stop = i ∨ t.start = j ∨ t.stop = j)) ∨
        (d ∈ (lookupDiff st.options_set i).sim ∧ d ∈ (lookupDiff st.options_set j).sim ∧
          0 < min (lookupDiff st.options_set i).a_b.card
            (lookupDiff st.options_set i).b_a.card ∧
          0 < min (lookupDiff st.options_set j).a_b.card
            (lookupDiff st.options_set j).b_a.card))) ∧
    (¬ ((∃ t ∈ st.transpositions, t.type = d ∧
          (t.start = i ∨ t.stop = i ∨ t.start = j ∨ t.stop = j)) ∨
        (d ∈ (lookupDiff st.options_set i).sim ∧ d ∈ (lookupDiff st.options_set j).sim ∧
          0 < min (lookupDiff st.options_set i).a_b.card
            (lookupDiff st.options_set i).b_a.card ∧
          0 < min (lookupDiff st.options_set j).a_b.card
            (lookupDiff st.options_set j).b_a.card)) →
      transp_step i j d st =
        ⟨updateOpt (updateOpt st.options_set i (discardLab · d)) j (discardLab · d),
          st.transpositions ++ [⟨i, j, d⟩]⟩) := by
  have hcond_iff : (!(overlaps_existing i j d st.transpositions) &&
      !(has_substitutions i j d st.options_set)) = true ↔
      ¬ ((∃ t ∈ st.transpositions, t.type = d ∧
          (t.start = i ∨ t.stop = i ∨ t.start = j ∨ t.stop = j)) ∨
        (d ∈ (lookupDiff st.options_set i).sim ∧ d ∈ (lookupDiff st.options_set j).sim ∧
          0 < min (lookupDiff st.options_set i).a_b.card
            (lookupDiff st.options_set i).b_a.card ∧
          0 < min (lookupDiff st.options_set j).a_b.card
            (lookupDiff st.options_set j).b_a.card)) := by
    rw [Bool.and_eq_true, Bool.not_eq_true', Bool.not_eq_true',
      ← Bool.not_eq_true (overlaps_existing i j d st.transpositions),
      ← Bool.not_eq_true (has_substitutions i j d st.options_set)]
    rw [not_or]
    constructor
    · rintro ⟨h1, h2⟩
      exact ⟨fun hp => h1 ((overlaps_existing_true_iff i j d st.transpositions).2 hp),
        fun hp => h2 ((has_substitutions_true_iff i j d st.options_set hwf).2 hp)⟩
    · rintro ⟨h1, h2⟩
      exact ⟨fun hb => h1 ((overlaps_existing_true_iff i j d st.transpositions).1 hb),
        fun hb => h2 ((has_substitutions_true_iff i j d st.options_set hwf).1 hb)⟩
  constructor
  · constructor
    · intro heq
      by_contra hno
      have hc := hcond_iff.2 hno
      unfold transp_step at heq
      rw [if_pos hc] at heq
      have hlen := congrArg (fun s => s.transpositions.length) heq
      simp at hlen
    · intro hp
      have hc : ¬ ((!(overlaps_existing i j d st.transpositions) &&
          !(has_substitutions i j d st.options_set)) = true) := fun hb =>
        hcond_iff.1 hb hp
      unfold transp_step
      rw [if_neg hc]
  · intro hno
    have hc := hcond_iff.2 hno
    unfold transp_step
    rw [if_pos hc]

/-- Witness for C6: the candidate `(0, 1, 1)` on the pure transposition
pair passes both tests and is accepted. -/
theorem transp_step_characterisation_witness :
    (∀ e ∈ optional_set_edits [({1} : Finset Lab), ∅] [∅, {1}],
      e.2.sim = e.2.a_b ∪ e.2.b_a ∧ Disjoint e.2.a_b e.2.b_a) ∧
    transp_step 0 1 1 ⟨optional_set_edits [({1} : Finset Lab), ∅] [∅, {1}], []⟩ =
      ⟨updateOpt (updateOpt (optional_set_edits [({1} : Finset Lab), ∅] [∅, {1}]) 0
          (discardLab · 1)) 1 (discardLab · 1), [⟨0, 1, 1⟩]⟩ :=
  ⟨by decide, (transp_step_characterisation 0 1 1
    ⟨optional_set_edits [({1} : Finset Lab), ∅] [∅, {1}], []⟩ (by decide)).2 (by decide)⟩

/-! ### Pure transpositions -/

/-- Counterexample to C4 as stated: on `A = [∅, {1}, ∅]`,
`B = [{1}, ∅, {1}]` the pattern of C4 holds at positions `(1, 2)` (label
`1` in A at 1 and in B at 2, absent from A at 2 and from B at 1, no other
disagreement at either position), yet the default-span decomposition
contains no Transposition `(1, 2, 1)`: the earlier candidate `(0, 1, 1)`
claims position 1 first, and the label ends up in an Addition. -/
theorem pure_transposition_shifted :
    (1 ∈ [(∅ : Finset Lab), {1}, ∅].getD 1 ∅) ∧
    (1 ∈ [({1} : Finset Lab), ∅, {1}].getD 2 ∅) ∧
    (1 ∉ [(∅ : Finset Lab), {1}, ∅].getD 2 ∅) ∧
    (1 ∉ [({1} : Finset Lab), ∅, {1}].getD 1 ∅) ∧
    sdiff2 ([(∅ : Finset Lab), {1}, ∅].getD 1 ∅) ([({1} : Finset Lab), ∅, {1}].getD 1 ∅) =
      {1} ∧
    sdiff2 ([(∅ : Finset Lab), {1}, ∅].getD 2 ∅) ([({1} : Finset Lab), ∅, {1}].getD 2 ∅) =
      {1} ∧
    [(∅ : Finset Lab), {1}, ∅].length = [({1} : Finset Lab), ∅, {1}].length ∧
    (⟨1, 2, 1⟩ : Transposition) ∉
      (boundary_edit_distance [(∅ : Finset Lab), {1}, ∅] [{1}, ∅, {1}] 2).2.2 ∧
    (Addition.mk 1 Side.b) ∈
      (boundary_edit_distance [(∅ : Finset Lab), {1}, ∅] [{1}, ∅, {1}] 2).1 := by
  decide

theorem sortedList_singleton (x : Lab) : sortedList {x} = [x] := rfl

theorem osOf_wf (bsa bsb : List (Finset Lab)) (ts : List Transposition) :
    ∀ e ∈ osOf bsa bsb ts, e.2.sim = e.2.a_b ∪ e.2.b_a ∧ Disjoint e.2.a_b e.2.b_a := by
  intro e he
  unfold osOf at he
  obtain ⟨p, _, hsome⟩ := List.mem_filterMap.1 he
  by_cases hP : origD bsa bsb p ≠ ∅
  · rw [if_pos hP] at hsome
    obtain rfl := Option.some.inj hsome
    exact residual_wf bsa bsb p (claimed ts p)
  · rw [if_neg hP] at hsome
    cases hsome

theorem osOf_mem_shape (bsa bsb : List (Finset Lab)) (ts : List Transposition)
    {e : ℕ × Difference} (he : e ∈ osOf bsa bsb ts) :
    e.2 = ⟨origD bsa bsb e.1 \ claimed ts e.1, origA bsa bsb e.1 \ claimed ts e.1,
           origB bsa bsb e.1 \ claimed ts e.1⟩ := by
  unfold osOf at he
  obtain ⟨p, _, hsome⟩ := List.mem_filterMap.1 he
  by_cases hP : origD bsa bsb p ≠ ∅
  · rw [if_pos hP] at hsome
    obtain rfl := Option.some.inj hsome
    rfl
  · rw [if_neg hP] at hsome
    cases hsome

theorem pairs_fold_StInv {bsa bsb : List (Finset Lab)} {ps : List (ℕ × ℕ)}
    (hps : ∀ pr ∈ ps, pr.1 < pr.2 ∧ pr.2 < (bsa.zip bsb).length) {st : TState}
    (hinv : StInv bsa bsb st) :
    StInv bsa bsb (ps.foldl (fun st p => position_step bsa bsb p.1 p.2 st) st) := by
  induction ps generalizing st with
  | nil => exact hinv
  | cons p ps ih =>
    rw [List.foldl_cons]
    have hp := hps p (List.mem_cons_self p ps)
    exact ih (fun q hq => hps q (List.mem_cons_of_mem p hq))
      (position_step_StInv hinv hp.1 hp.2)

theorem transp_step_other_label {st : TState} {i' j' : ℕ} {d' dd : Lab} (hd : d' ≠ dd) :
    (transp_step i' j' d' st).transpositions.filter (fun t => decide (t.type = dd)) =
      st.transpositions.filter (fun t => decide (t.type = dd)) := by
  unfold transp_step
  by_cases hcond : (!(overlaps_existing i' j' d' st.transpositions) &&
      !(has_substitutions i' j' d' st.options_set)) = true
  · rw [if_pos hcond]
    show (st.transpositions ++ [(⟨i', j', d'⟩ : Transposition)]).filter
        (fun t => decide (t.type = dd)) = _
    rw [List.filter_append]
    simp [hd]
  · rw [if_neg hcond]

theorem position_step_other_label {bsa bsb : List (Finset Lab)} {st : TState}
    {i' j' : ℕ} {dd : Lab} (hd : dd ∉ t_p bsa bsb i' j') :
    (position_step bsa bsb i' j' st).transpositions.filter (fun t => decide (t.type = dd)) =
      st.transpositions.filter (fun t => decide (t.type = dd)) := by
  unfold position_step
  have hl : ∀ x ∈ sortedList (t_p bsa bsb i' j'), x ≠ dd :=
    fun x hx hxd => hd (hxd ▸ sortedList_mem.1 hx)
  generalize sortedList (t_p bsa bsb i' j') = l at hl
  induction l generalizing st with
  | nil => rfl
  | cons x xs ih =>
    rw [List.foldl_cons]
    rw [ih (fun y hy => hl y (List.mem_cons_of_mem x hy)),
      transp_step_other_label (hl x (List.mem_cons_self x xs))]

theorem pairs_fold_other_label {bsa bsb : List (Finset Lab)} {ps : List (ℕ × ℕ)} {dd : Lab}
    (hps : ∀ pr ∈ ps, dd ∉ t_p bsa bsb pr.1 pr.2) {st : TState} :
    ((ps.foldl (fun st p => position_step bsa bsb p.1 p.2 st)
        st).transpositions).filter (fun t => decide (t.type = dd)) =
      st.transpositions.filter (fun t => decide (t.type = dd)) := by
  induction ps generalizing st with
  | nil => rfl
  | cons p ps ih =>
    rw [List.foldl_cons, ih (fun q hq => hps q (List.mem_cons_of_mem p hq)),
      position_step_other_label (hps p (List.mem_cons_self p ps))]

theorem pure_accept_step {bsa bsb : List (Finset Lab)} {i : ℕ} {d : Lab}
    (hlen : bsa.length = bsb.length) (hj : i + 1 < bsa.length)
    (hBorigi : origB bsa bsb i = ∅) {ts : List Transposition}
    (hfilter : ts.filter (fun t => decide (t.type = d)) = []) :
    transp_step i (i + 1) d ⟨osOf bsa bsb ts, ts⟩ =
      ⟨updateOpt (updateOpt (osOf bsa bsb ts) i (discardLab · d)) (i + 1) (discardLab · d),
        ts ++ [⟨i, i + 1, d⟩]⟩ := by
  have hK : (bsa.zip bsb).length = bsa.length := by
    rw [List.length_zip]
    omega
  have hov : overlaps_existing i (i + 1) d ts = false := by
    rw [overlaps_existing_false_iff]
    intro t ht htype
    exfalso
    have hmem : t ∈ ts.filter (fun t => decide (t.type = d)) :=
      List.mem_filter.2 ⟨ht, by simp [htype]⟩
    rw [hfilter] at hmem
    exact List.not_mem_nil t hmem
  have hhs : has_substitutions i (i + 1) d (osOf bsa bsb ts) = false := by
    cases hb : has_substitutions i (i + 1) d (osOf bsa bsb ts)
    · rfl
    · exfalso
      have h2 := (has_substitutions_true_iff i (i + 1) d (osOf bsa bsb ts)
        (osOf_wf bsa bsb ts)).1 hb
      have hli : lookupDiff (osOf bsa bsb ts) i =
          ⟨origD bsa bsb i \ claimed ts i, origA bsa bsb i \ claimed ts i,
           origB bsa bsb i \ claimed ts i⟩ :=
        lookupDiff_osOf bsa bsb ts (by omega)
      rw [hli] at h2
      obtain ⟨_, _, h3, _⟩ := h2
      rw [hBorigi] at h3
      simp at h3
  unfold transp_step
  rw [if_pos (by rw [hov, hhs]; rfl)]

theorem asets_mem_types (d0 a b : Finset Lab) :
    (∀ ad ∈ (additions_substitutions_sets d0 a b).1, ad.type ∈ a ∪ b) ∧
    (∀ sb ∈ (additions_substitutions_sets d0 a b).2, sb.type_a ∈ a ∧ sb.type_b ∈ b) := by
  constructor
  · intro ad had
    rw [asets_spelled] at had
    rcases List.mem_append.1 had with h | h
    · obtain ⟨y, hy, rfl⟩ := List.mem_map.1 h
      exact Finset.mem_union_left _ (Finset.mem_sdiff.1 (sortedList_mem.1 hy)).1
    · obtain ⟨y, hy, rfl⟩ := List.mem_map.1 h
      exact Finset.mem_union_right _ (Finset.mem_sdiff.1 (sortedList_mem.1 hy)).1
  · intro sb hsb
    rw [asets_spelled] at hsb
    obtain ⟨p, hp, rfl⟩ := List.mem_map.1 hsb
    exact (chosen_pairing_facts a b).2.2.2 p hp

theorem foldl_accumulate_mem (os : List (ℕ × Difference)) (a0 : List Addition)
    (s0 : List Substitution) :
    (∀ x ∈ (os.foldl (fun acc e =>
        (acc.1 ++ (additions_substitutions_sets e.2.sim e.2.a_b e.2.b_a).1,
         acc.2 ++ (additions_substitutions_sets e.2.sim e.2.a_b e.2.b_a).2)) (a0, s0)).1,
      x ∈ a0 ∨ ∃ e ∈ os, x ∈ (additions_substitutions_sets e.2.sim e.2.a_b e.2.b_a).1) ∧
    (∀ y ∈ (os.foldl (fun acc e =>
        (acc.1 ++ (additions_substitutions_sets e.2.sim e.2.a_b e.2.b_a).1,
         acc.2 ++ (additions_substitutions_sets e.2.sim e.2.a_b e.2.b_a).2)) (a0, s0)).2,
      y ∈ s0 ∨ ∃ e ∈ os, y ∈ (additions_substitutions_sets e.2.sim e.2.a_b e.2.b_a).2) := by
  induction os generalizing a0 s0 with
  | nil =>
    exact ⟨fun x hx => Or.inl hx, fun y hy => Or.inl hy⟩
  | cons e es ih =>
    rw [List.foldl_cons]
    obtain ⟨ih1, ih2⟩ := ih (a0 ++ (additions_substitutions_sets e.2.sim e.2.a_b e.2.b_a).1)
      (s0 ++ (additions_substitutions_sets e.2.sim e.2.a_b e.2.b_a).2)
    constructor
    · intro x hx
      rcases ih1 x hx with h | ⟨e2, he2, hx2⟩
      · rcases List.mem_append.1 h with h2 | h2
        · exact Or.inl h2
        · exact Or.inr ⟨e, List.mem_cons_self e es, h2⟩
      · exact Or.inr ⟨e2, List.mem_cons_of_mem e he2, hx2⟩
    · intro y hy
      rcases ih2 y hy with h | ⟨e2, he2, hy2⟩
      · rcases List.mem_append.1 h with h2 | h2
        · exact Or.inl h2
        · exact Or.inr ⟨e, List.mem_cons_self e es, h2⟩
      · exact Or.inr ⟨e2, List.mem_cons_of_mem e he2, hy2⟩

/-- C4 (amended): if a label `d` is present in A at `i` and in B at
`j = i + 1`, absent from A at `j` and from B at `i`, there is no other
disagreement at either position, and — the amendment forced by
`pure_transposition_shifted` — `d` does not belong to the symmetric
difference at any other position, then the default-span decomposition
contains exactly one transposition of label `d`, namely `(i, j, d)`, and
no addition or substitution involves `d`. -/
theorem pure_transposition_detected (bsa bsb : List (Finset Lab)) (i : ℕ) (d : Lab)
    (hlen : bsa.length = bsb.length) (hj : i + 1 < bsa.length)
    (hAi : d ∈ bsa.getD i ∅) (hBj : d ∈ bsb.getD (i + 1) ∅)
    (hAj : d ∉ bsa.getD (i + 1) ∅) (hBi : d ∉ bsb.getD i ∅)
    (hdi : sdiff2 (bsa.getD i ∅) (bsb.getD i ∅) = {d})
    (hdj : sdiff2 (bsa.getD (i + 1) ∅) (bsb.getD (i + 1) ∅) = {d})
    (hother : ∀ p < bsa.length, p ≠ i → p ≠ i + 1 →
      d ∉ sdiff2 (bsa.getD p ∅) (bsb.getD p ∅)) :
    ((boundary_edit_distance bsa bsb 2).2.2.filter (fun t => decide (t.type = d))) =
      [⟨i, i + 1, d⟩] ∧
    (∀ ad ∈ (boundary_edit_distance bsa bsb 2).1, ad.type ≠ d) ∧
    (∀ sb ∈ (boundary_edit_distance bsa bsb 2).2.1, sb.type_a ≠ d ∧ sb.type_b ≠ d) := by
  have hK : (bsa.zip bsb).length = bsa.length := by
    rw [List.length_zip]
    omega
  have hdi2 : origD bsa bsb i = {d} := hdi
  have hD : ∀ p, d ∈ origD bsa bsb p → p = i ∨ p = i + 1 := by
    intro p hp
    by_cases hplen : p < bsa.length
    · by_contra hno
      push_neg at hno
      exact hother p hplen hno.1 hno.2 hp
    · exfalso
      have ha0 : bsa.getD p ∅ = ∅ := List.getD_eq_default _ _ (by omega)
      have hb0 : bsb.getD p ∅ = ∅ := List.getD_eq_default _ _ (by omega)
      have hDp : origD bsa bsb p = ∅ := by
        unfold origD
        rw [ha0, hb0, sdiff2_self]
      rw [hDp] at hp
      exact Finset.not_mem_empty d hp
  have hBorigi : origB bsa bsb i = ∅ := by
    have hsub : origB bsa bsb i ⊆ {d} := hdi2 ▸ origB_subset_origD bsa bsb i
    have hnot : d ∉ origB bsa bsb i := fun hmem => hBi (Finset.mem_sdiff.1 hmem).1
    rcases Finset.subset_singleton_iff.1 hsub with h | h
    · exact h
    · exact absurd (by rw [h]; exact Finset.mem_singleton_self d) hnot
  have htp_pair : t_p bsa bsb i (i + 1) = {d} := by
    apply Finset.Subset.antisymm
    · intro x hx
      have h1 := t_p_subset_left bsa bsb i (i + 1) hx
      rwa [hdi2] at h1
    · rw [Finset.singleton_subset_iff]
      show d ∈ sdiff2 (bsa.getD i ∅) (bsb.getD i ∅) ∩
        sdiff2 (bsa.getD (i + 1) ∅) (bsb.getD (i + 1) ∅) ∩
        sdiff2 (bsa.getD i ∅) (bsa.getD (i + 1) ∅) ∩
        sdiff2 (bsb.getD i ∅) (bsb.getD (i + 1) ∅)
      refine Finset.mem_inter.2 ⟨Finset.mem_inter.2 ⟨Finset.mem_inter.2 ⟨?_, ?_⟩, ?_⟩, ?_⟩
      · rw [hdi]
        exact Finset.mem_singleton_self d
      · rw [hdj]
        exact Finset.mem_singleton_self d
      · exact Finset.mem_union_left _ (Finset.mem_sdiff.2 ⟨hAi, hAj⟩)
      · exact Finset.mem_union_right _ (Finset.mem_sdiff.2 ⟨hBj, hBi⟩)
  have hpairs : scan_pairs bsa.length (List.range' 2 (2 - 1)) =
      (List.range (bsa.length - 1)).map (fun k => (k, k + 1)) := by
    unfold scan_pairs
    rw [show (List.range' 2 (2 - 1)).insertionSort (· ≤ ·) = [2] from rfl]
    simp
  have hsplit : List.range (bsa.length - 1) =
      List.range i ++ i :: (List.range (bsa.length - 2 - i)).map (fun k => i + 1 + k) := by
    have h1 : bsa.length - 1 = i + (bsa.length - 1 - i) := by omega
    rw [h1, List.range_add]
    congr 1
    have h2 : bsa.length - 1 - i = (bsa.length - 2 - i) + 1 := by omega
    rw [h2, List.range_succ_eq_map, List.map_cons, List.map_map]
    congr 1
    apply List.map_congr_left
    intro x _
    simp only [Function.comp]
    omega
  have hps_split : (List.range (bsa.length - 1)).map (fun k => (k, k + 1)) =
      (List.range i).map (fun k => (k, k + 1)) ++
        (i, i + 1) :: ((List.range (bsa.length - 2 - i)).map (fun k => i + 1 + k)).map
          (fun k => (k, k + 1)) := by
    rw [hsplit, List.map_append, List.map_cons]
  have hpre : ∀ pr ∈ (List.range i).map (fun k => (k, k + 1)),
      d ∉ t_p bsa bsb pr.1 pr.2 := by
    intro pr hpr hmem
    obtain ⟨k, hk, rfl⟩ := List.mem_map.1 hpr
    rw [List.mem_range] at hk
    have h1 := hD k (t_p_subset_left _ _ _ _ hmem)
    omega
  have hpost : ∀ pr ∈ ((List.range (bsa.length - 2 - i)).map (fun k => i + 1 + k)).map
      (fun k => (k, k + 1)), d ∉ t_p bsa bsb pr.1 pr.2 := by
    intro pr hpr hmem
    obtain ⟨m, hm, rfl⟩ := List.mem_map.1 hpr
    obtain ⟨k, _, rfl⟩ := List.mem_map.1 hm
    have h1 := hD _ (t_p_subset_left _ _ _ _ hmem)
    have h2 := hD _ (t_p_subset_right _ _ _ _ hmem)
    omega
  have hinit : StInv bsa bsb ⟨optional_set_edits bsa bsb, []⟩ :=
    ⟨optional_set_edits_eq_osOf_nil bsa bsb, TransChain_nil bsa bsb⟩
  have hpreb : ∀ pr ∈ (List.range i).map (fun k => (k, k + 1)),
      pr.1 < pr.2 ∧ pr.2 < (bsa.zip bsb).length := by
    intro pr hpr
    obtain ⟨k, hk, rfl⟩ := List.mem_map.1 hpr
    rw [List.mem_range] at hk
    exact ⟨by omega, by omega⟩
  set st1 := ((List.range i).map (fun k => (k, k + 1))).foldl
    (fun st p => position_step bsa bsb p.1 p.2 st) ⟨optional_set_edits bsa bsb, []⟩
    with hst1def
  have hinv1 : StInv bsa bsb st1 := pairs_fold_StInv hpreb hinit
  have hfil1 : st1.transpositions.filter (fun t => decide (t.type = d)) = [] := by
    rw [hst1def, pairs_fold_other_label hpre]
    rfl
  have hst1eq : st1 = ⟨osOf bsa bsb st1.transpositions, st1.transpositions⟩ := by
    rw [← hinv1.1]
  have hstep : position_step bsa bsb i (i + 1) st1 = transp_step i (i + 1) d st1 := by
    unfold position_step
    rw [htp_pair, sortedList_singleton]
    rfl
  have hst2 : (position_step bsa bsb i (i + 1) st1).transpositions =
      st1.transpositions ++ [⟨i, i + 1, d⟩] := by
    rw [hstep]
    conv_lhs => rw [hst1eq]
    rw [pure_accept_step hlen hj hBorigi hfil1]
  have hfil2 : (position_step bsa bsb i (i + 1) st1).transpositions.filter
      (fun t => decide (t.type = d)) = [⟨i, i + 1, d⟩] := by
    rw [hst2, List.filter_append, hfil1]
    simp
  have hbedT : (boundary_edit_distance bsa bsb 2).2.2 =
      ((scan_pairs bsa.length (List.range' 2 (2 - 1))).foldl
        (fun st p => position_step bsa bsb p.1 p.2 st)
        ⟨optional_set_edits bsa bsb, []⟩).transpositions := rfl
  have hfinal : (boundary_edit_distance bsa bsb 2).2.2.filter
      (fun t => decide (t.type = d)) = [⟨i, i + 1, d⟩] := by
    rw [hbedT, hpairs, hps_split, List.foldl_append, List.foldl_cons, ← hst1def,
      pairs_fold_other_label hpost, hfil2]
  refine ⟨hfinal, ?_, ?_⟩
  all_goals {
    have hTinv := find_transpositions_StInv bsa bsb (le_of_eq hlen) (List.range' 2 (2 - 1))
      (fun n hn => (List.mem_range'_1.1 hn).1)
    have htmem : (⟨i, i + 1, d⟩ : Transposition) ∈
        (find_transpositions bsa bsb (List.range' 2 (2 - 1))
          (optional_set_edits bsa bsb)).1 := by
      apply List.mem_of_mem_filter (p := fun t => decide (t.type = d))
      show (⟨i, i + 1, d⟩ : Transposition) ∈
        (boundary_edit_distance bsa bsb 2).2.2.filter (fun t => decide (t.type = d))
      rw [hfinal]
      exact List.mem_singleton_self _
    have hclaim : ∀ p, p = i ∨ p = i + 1 →
        d ∈ claimed (find_transpositions bsa bsb (List.range' 2 (2 - 1))
          (optional_set_edits bsa bsb)).1 p := by
      intro p hp
      apply mem_claimed.2
      refine ⟨⟨i, i + 1, d⟩, htmem, ?_, rfl⟩
      rcases hp with rfl | rfl
      · exact touchesB_mk_start p (p + 1) d
      · exact touchesB_mk_stop i (i + 1) d
    first
    | { intro ad had heq
        have hbed1 : (boundary_edit_distance bsa bsb 2).1 =
            ((find_transpositions bsa bsb (List.range' 2 (2 - 1))
                (optional_set_edits bsa bsb)).2.foldl (fun acc e =>
                (acc.1 ++ (additions_substitutions_sets e.2.sim e.2.a_b e.2.b_a).1,
                 acc.2 ++ (additions_substitutions_sets e.2.sim e.2.a_b e.2.b_a).2))
              ([], [])).1 := rfl
        rw [hbed1] at had
        rcases (foldl_accumulate_mem _ [] []).1 ad had with h | ⟨e, he, hin⟩
        · exact List.not_mem_nil ad h
        · rw [hTinv.1] at he
          have hshape := osOf_mem_shape bsa bsb _ he
          have hty := (asets_mem_types e.2.sim e.2.a_b e.2.b_a).1 ad hin
          rw [hshape] at hty
          dsimp only at hty
          rcases Finset.mem_union.1 hty with h2 | h2
          · rw [heq] at h2
            have h3 := Finset.mem_sdiff.1 h2
            have h4 := hD e.1 (origA_subset_origD bsa bsb e.1 h3.1)
            exact h3.2 (hclaim e.1 h4)
          · rw [heq] at h2
            have h3 := Finset.mem_sdiff.1 h2
            have h4 := hD e.1 (origB_subset_origD bsa bsb e.1 h3.1)
            exact h3.2 (hclaim e.1 h4) }
    | { intro sb hsb
        have hbed2 : (boundary_edit_distance bsa bsb 2).2.1 =
            ((find_transpositions bsa bsb (List.range' 2 (2 - 1))
                (optional_set_edits bsa bsb)).2.foldl (fun acc e =>
                (acc.1 ++ (additions_substitutions_sets e.2.sim e.2.a_b e.2.b_a).1,
                 acc.2 ++ (additions_substitutions_sets e.2.sim e.2.a_b e.2.b_a).2))
              ([], [])).2 := rfl
        rw [hbed2] at hsb
        rcases (foldl_accumulate_mem _ [] []).2 sb hsb with h | ⟨e, he, hin⟩
        · exact absurd h (List.not_mem_nil sb)
        · rw [hTinv.1] at he
          have hshape := osOf_mem_shape bsa bsb _ he
          have hty := (asets_mem_types e.2.sim e.2.a_b e.2.b_a).2 sb hin
          rw [hshape] at hty
          dsimp only at hty
          constructor
          · intro heq
            rw [heq] at hty
            have h3 := Finset.mem_sdiff.1 hty.1
            have h4 := hD e.1 (origA_subset_origD bsa bsb e.1 h3.1)
            exact h3.2 (hclaim e.1 h4)
          · intro heq
            rw [heq] at hty
            have h3 := Finset.mem_sdiff.1 hty.2
            have h4 := hD e.1 (origB_subset_origD bsa bsb e.1 h3.1)
            exact h3.2 (hclaim e.1 h4) } }

/-- Witness for C4 (amended) on the pure transposition pair. -/
theorem pure_transposition_detected_witness :
    ([({1} : Finset Lab), ∅].length = [(∅ : Finset Lab), {1}].length) ∧
      ((boundary_edit_distance [({1} : Finset Lab), ∅] [∅, {1}] 2).2.2.filter
        (fun t => decide (t.type = 1))) = [⟨0, 1, 1⟩] :=
  ⟨by decide, (pure_transposition_detected [{1}, ∅] [∅, {1}] 0 1 (by decide) (by decide)
    (by decide) (by decide) (by decide) (by decide) (by decide) (by decide)
    (by decide)).1⟩

end Segeval
